import Mathlib

/- Verification of the A* path-finding repository (a_star.py, node.py, edge.py).
   The Python data model is embedded shallowly:
   * `NodeType` mirrors the `NodeType` enum of node.py;
   * `Node`/`Edge` mirror the frozen dataclasses of node.py (an `Edge` stores
     the predecessor node `target`, the accumulated cost `g`, the heuristic `h`
     and the diagonal flag); since the dataclasses are frozen (immutable) and
     `set_edge_to_parent` uses `dataclasses.replace`, values form a well-founded
     tree and are embedded as a mutual inductive type;
   * costs: the Python code stores `g` as a float built from the exact constants
     10.0 and 14.0, so `g` is embedded as a natural number (those float sums are
     exact); `h` is `math.sqrt(dx*dx + dy*dy)`, embedded by its radicand
     `dx*dx + dy*dy`, and comparisons of `f = g + h` are performed by the exact
     integer decision procedure `fLt` for `g1 + sqrt d1 < g2 + sqrt d2`. -/

inductive NodeType : Type where
  | BLANK : NodeType
  | START : NodeType
  | END : NodeType
  | OBSTACLE : NodeType
deriving DecidableEq, Repr, Fintype

/-- Numeric value of each enum member (node.py: `BLANK = 0` ... `OBSTACLE = 3`). -/
def NodeType.value : NodeType → ℕ
  | NodeType.BLANK => 0
  | NodeType.START => 1
  | NodeType.END => 2
  | NodeType.OBSTACLE => 3

/-- The list of enum members, as iterated by `[e.value for e in NodeType]`. -/
def NodeType.members : List NodeType :=
  [NodeType.BLANK, NodeType.START, NodeType.END, NodeType.OBSTACLE]

/-- node.py `max([e.value for e in NodeType])`. -/
def NodeType.maxValue : ℕ := ((NodeType.members.map NodeType.value).max?).getD 0

/-- Python `NodeType(value)` for a value in range; node.py only applies it to
    arguments that are values of members (`from_value` clamps first), so the
    out-of-range case (where Python would raise `ValueError`) is unreachable
    and mapped to `OBSTACLE` only to make the function total. -/
def NodeType.ofValue : ℕ → NodeType
  | 0 => NodeType.BLANK
  | 1 => NodeType.START
  | 2 => NodeType.END
  | 3 => NodeType.OBSTACLE
  | _ => NodeType.OBSTACLE

/-- node.py `NodeType.from_value`: clamp values above the maximal member value
    to that maximal value, then decode. -/
def NodeType.from_value (value : ℕ) : NodeType :=
  if value > NodeType.maxValue then NodeType.ofValue NodeType.maxValue
  else NodeType.ofValue value

mutual

inductive Node : Type where
  | mk : Int → Int → NodeType → OptEdge → Node

inductive OptEdge : Type where
  | none : OptEdge
  | some : Edge → OptEdge

inductive Edge : Type where
  | mk : Node → ℕ → ℕ → Bool → Edge

end

/-- Coordinate `x` of a node (node.py `Node.x`). -/
def Node.x : Node → Int
  | Node.mk x _ _ _ => x

/-- Coordinate `y` of a node (node.py `Node.y`). -/
def Node.y : Node → Int
  | Node.mk _ y _ _ => y

/-- Kind of a node (node.py `Node.node_type`). -/
def Node.node_type : Node → NodeType
  | Node.mk _ _ t _ => t

/-- Optional best edge to the parent (node.py `Node.edge_to_parent`). -/
def Node.edge_to_parent : Node → OptEdge
  | Node.mk _ _ _ e => e

/-- Predecessor node of an edge (edge definition in node.py: `Edge.target`). -/
def Edge.target : Edge → Node
  | Edge.mk t _ _ _ => t

/-- Accumulated cost of an edge (`Edge.g`). -/
def Edge.g : Edge → ℕ
  | Edge.mk _ g _ _ => g

/-- Heuristic of an edge (`Edge.h`), stored as the radicand of the Euclidean
    distance computed by `__calc_h`. -/
def Edge.h : Edge → ℕ
  | Edge.mk _ _ h _ => h

/-- Diagonal flag of an edge (`Edge.is_diagonal`). -/
def Edge.is_diagonal : Edge → Bool
  | Edge.mk _ _ _ d => d

/-- node.py `Node.empty()`: `Node(0, 0, NodeType(0))`. -/
def Node.empty : Node := Node.mk 0 0 (NodeType.ofValue 0) OptEdge.none

/-- node.py `Node.is_start`. -/
def Node.is_start (n : Node) : Bool := n.node_type = NodeType.START

/-- node.py `Node.is_end`. -/
def Node.is_end (n : Node) : Bool := n.node_type = NodeType.END

/-- node.py `Node.is_obstacle`. -/
def Node.is_obstacle (n : Node) : Bool := n.node_type = NodeType.OBSTACLE

/-- node.py `Node.has_edge_to_parent`. -/
def Node.has_edge_to_parent (n : Node) : Bool :=
  match n.edge_to_parent with
  | OptEdge.none => false
  | OptEdge.some _ => true

/-- node.py `Node.set_edge_to_parent`: `dataclasses.replace` returns a new
    node with the same coordinates and kind and the given edge. -/
def Node.set_edge_to_parent (n : Node) (e : OptEdge) : Node :=
  Node.mk n.x n.y n.node_type e

/-- node.py `Node.__eq__`: equality is by coordinates alone. -/
def nodeEq (a b : Node) : Bool := a.x = b.x && a.y = b.y

/-- Python `v in lst` membership for nodes, which uses `Node.__eq__`. -/
def nodeMem (v : Node) (l : List Node) : Bool := l.any (fun x => nodeEq x v)

/- The AStar class of a_star.py. Its fields `__layout`, `__node_start`,
   `__node_end`, `__open_list`, `__closed_list` become the fields below.
   (`__open_list`/`__closed_list` are cleared at the start of every `search`,
   so initializing them to `[]` at construction matches the Python behavior.) -/

structure AStar : Type where
  layout : List (List Node)
  node_start : Node
  node_end : Node
  openList : List Node
  closedList : List Node

/-- The two `InvalidLayoutInitializationException` messages of `AStar.__init__`. -/
inductive InitError : Type where
  | noStartFound : InitError
  | noEndFound : InitError
deriving DecidableEq, Repr

/-- The layout built by `AStar.__init__`: `layout[x][y] = Node(x, y,
    NodeType(NodeType.from_value(arr2d[x][y])))` (applying `NodeType` to a
    member returns it unchanged), with no edge annotation. The Python loop
    runs `y` over `range(len(arr2d[0]))`; for a rectangular input that is
    exactly each row, as mapped here. -/
def buildLayout (arr2d : List (List ℕ)) : List (List Node) :=
  arr2d.enum.map (fun px =>
    px.2.enum.map (fun py =>
      Node.mk (px.1 : Int) (py.1 : Int) (NodeType.from_value py.2) OptEdge.none))

/-- Row-major scan keeping the last node satisfying the predicate, as the
    `__init__` double loop does for `is_start`/`is_end` (each later match
    overwrites the member field). -/
def scanLast (L : List (List Node)) (p : Node → Bool) : Option Node :=
  L.foldl (fun acc row => row.foldl (fun acc2 n => if p n then some n else acc2) acc) none

/-- a_star.py `AStar.__init__` for a nonempty rectangular `arr2d` (on an empty
    outer list the Python code raises an `IndexError` at `len(arr2d[0])`
    instead; theorems therefore carry an `arr2d ≠ []` hypothesis). -/
def AStar.init (arr2d : List (List ℕ)) : Except InitError AStar :=
  let L := buildLayout arr2d
  match scanLast L Node.is_start with
  | none => Except.error InitError.noStartFound
  | some s =>
    match scanLast L Node.is_end with
    | none => Except.error InitError.noEndFound
    | some e => Except.ok { layout := L, node_start := s, node_end := e, openList := [], closedList := [] }

/-- a_star.py `AStar.get_len_x`. -/
def AStar.get_len_x (a : AStar) : ℕ := a.layout.length

/-- a_star.py `AStar.get_len_y`: `len(self.__layout[0])`. -/
def AStar.get_len_y (a : AStar) : ℕ := (a.layout.headD []).length

/-- a_star.py `AStar.__is_in_bounds`. -/
def AStar.is_in_bounds (a : AStar) (x y : Int) : Bool :=
  if x < 0 ∨ x > (a.get_len_x : Int) - 1 ∨ y < 0 ∨ y > (a.get_len_y : Int) - 1 then false
  else true

/-- Nested list lookup `layout[x][y]` for nonnegative indices. -/
def lookupL (L : List (List Node)) (x y : ℕ) : Option Node :=
  L[x]?.bind (fun row => row[y]?)

/-- a_star.py `AStar.__get_node_or_none`: bounds-checked layout lookup (for a
    rectangular layout the inner index never fails once the bounds check
    passed, so the `Option.bind` in `lookupL` is exact). -/
def AStar.get_node_or_none (a : AStar) (x y : Int) : Option Node :=
  if a.is_in_bounds x y then lookupL a.layout x.toNat y.toNat
  else none

/-- a_star.py `AStar.__get_neighbours`: the eight aligned coordinates in source
    order (TL, TC, TR, CR, BR, BC, BL, CL) with their diagonal flags, keeping
    the in-bounds ones. -/
def AStar.get_neighbours (a : AStar) (node : Node) : List (Node × Bool) :=
  let aligned_coordinates : List (Int × Int × Bool) :=
    [(node.x - 1, node.y + 1, true), (node.x, node.y + 1, false),
     (node.x + 1, node.y + 1, true), (node.x + 1, node.y, false),
     (node.x + 1, node.y - 1, true), (node.x, node.y - 1, false),
     (node.x - 1, node.y - 1, true), (node.x - 1, node.y, false)]
  aligned_coordinates.foldr (fun c acc =>
    match a.get_node_or_none c.1 c.2.1 with
    | none => acc
    | some nb => (nb, c.2.2) :: acc) []

/-- a_star.py `AStar.__calc_g`; `none` embeds the `raise Exception('No edge
    found.')` branch. The step constants 10.0 and 14.0 are exact in floats. -/
def AStar.calc_g (parent : Node) (is_diagonal : Bool) : Option ℕ :=
  if parent.has_edge_to_parent = false ∧ parent.node_type = NodeType.START then some 0
  else
    match parent.edge_to_parent with
    | OptEdge.none => none
    | OptEdge.some e => some (e.g + (if is_diagonal then 14 else 10))

/-- a_star.py `AStar.__calc_h`: the Euclidean distance `sqrt(dx*dx + dy*dy)`
    to the end point, represented by its radicand `dx*dx + dy*dy` (a
    nonnegative integer). -/
def AStar.calc_h (a : AStar) (node : Node) : ℕ :=
  let dx := a.node_end.x - node.x
  let dy := a.node_end.y - node.y
  ((dx * dx) + (dy * dy)).toNat

/-- An f-score `g + sqrt d` as used in `__get_f_or_zero_if_start`; the pair
    `(g, d)` stands for the real number `g + sqrt d` (`Edge.get_f` is `g + h`
    with `h = sqrt d`). -/
def FScore : Type := ℕ × ℕ

/-- Exact decision of `g1 + sqrt d1 < g2 + sqrt d2` by integer arithmetic
    (the comparison the Python float `<` approximates in `min(..., key=...)`). -/
def fLt (p q : FScore) : Bool :=
  let k : Int := (q.1 : Int) - (p.1 : Int)
  if 0 ≤ k then
    let m : Int := (p.2 : Int) - k * k - (q.2 : Int)
    if m < 0 then true else decide (m * m < 4 * (k * k) * (q.2 : Int))
  else
    let m : Int := (q.2 : Int) - (p.2 : Int) - k * k
    if m ≤ 0 then false else decide (4 * (k * k) * (p.2 : Int) < m * m)

/-- a_star.py `AStar.__get_f_or_zero_if_start`; `none` embeds the
    `AttributeError` Python raises when `edge_to_parent` is `None` for a
    non-start node. -/
def get_f_or_zero_if_start (node : Node) : Option FScore :=
  if node.node_type = NodeType.START then some (0, 0)
  else
    match node.edge_to_parent with
    | OptEdge.none => none
    | OptEdge.some e => some (e.g, e.h)

/-- Python `min(open_list, key=self.__get_f_or_zero_if_start)`: single pass
    keeping the current best, replacing it only on a strictly smaller key
    (so the first minimum in iteration order wins); a key evaluation failure
    (`none`) aborts, like the propagated Python exception. -/
def selectMin (best : Node) : List Node → Option Node
  | [] => (get_f_or_zero_if_start best).map (fun _ => best)
  | n :: rest =>
    match get_f_or_zero_if_start best, get_f_or_zero_if_start n with
    | some kb, some kn => selectMin (if fLt kn kb then n else best) rest
    | _, _ => none

/-- Python `open_list.remove(current)`: remove the first element equal
    (by `Node.__eq__`, i.e. coordinates) to `current`. -/
def removeFirst (l : List Node) (v : Node) : List Node :=
  l.eraseP (fun x => nodeEq x v)

/-- The `else` branch of the neighbour insertion in `__do_search`:
    `index_of_other = open_list.index(nwe)` followed by the conditional
    in-place replacement when the new edge has a strictly smaller `g`.
    `none` embeds the dereference `open_list[index_of_other].edge_to_parent.g`
    failing on a node without an edge; the empty case is the `ValueError`
    `list.index` would raise (the caller establishes membership first). -/
def replaceIfBetter (nwe : Node) (gNew : ℕ) : List Node → Option (List Node)
  | [] => Option.none
  | x :: xs =>
    if nodeEq x nwe then
      match x.edge_to_parent with
      | OptEdge.none => Option.none
      | OptEdge.some e => some (if gNew < e.g then nwe :: xs else x :: xs)
    else (replaceIfBetter nwe gNew xs).map (fun r => x :: r)

/-- Body of the `for (neighbour, is_diagonal) in self.__get_neighbours(...)`
    loop of `__do_search`, acting on the open list accumulator; `none` embeds
    a raised exception. -/
def processNb (a : AStar) (current : Node) (acc : List Node) (nb : Node × Bool) : Option (List Node) :=
  if nb.1.is_obstacle ∨ nodeMem nb.1 a.closedList then some acc
  else
    match AStar.calc_g current nb.2 with
    | Option.none => Option.none
    | some gNew =>
      let nwe := nb.1.set_edge_to_parent (OptEdge.some (Edge.mk current gNew (a.calc_h nb.1) nb.2))
      if nodeMem nwe acc = false then some (acc ++ [nwe])
      else replaceIfBetter nwe gNew acc

/-- The neighbour loop of `__do_search`, folded over the neighbour list. -/
def expandLoop (a : AStar) (current : Node) : List (Node × Bool) → List Node → Option (List Node)
  | [], acc => some acc
  | nb :: rest, acc =>
    match processNb a current acc nb with
    | Option.none => Option.none
    | some acc2 => expandLoop a current rest acc2

/-- Result of one `search` run. `crash` embeds an uncaught Python exception
    (`AttributeError`, `ValueError` or the explicit `Exception` of
    `__calc_g`); `fuelOut` is the artifact of the fuel parameter that makes
    the recursive `__do_search` a total Lean function, and is proved
    unreachable for sufficient fuel. -/
inductive SRes : Type where
  | ok : Bool → SRes
  | crash : SRes
  | fuelOut : SRes
deriving DecidableEq, Repr

/-- a_star.py `AStar.__do_search`, with explicit state and fuel. Each
    recursive call moves the minimum-f node from the open to the closed list,
    returns `true` when that node is the end (updating `__node_end` to the
    popped copy), expands its neighbours otherwise, and returns `false` when
    the open list is exhausted. -/
def doSearch : ℕ → AStar → SRes × AStar
  | 0, a => (SRes.fuelOut, a)
  | fuel + 1, a =>
    match a.openList with
    | [] => (SRes.ok false, a)
    | x :: xs =>
      match selectMin x xs with
      | Option.none => (SRes.crash, a)
      | some current =>
        let op1 := removeFirst a.openList current
        let cl1 := a.closedList ++ [current]
        if current.is_end then
          (SRes.ok true, { a with node_end := current, openList := op1, closedList := cl1 })
        else
          let a1 : AStar := { a with openList := op1, closedList := cl1 }
          match expandLoop a1 current (a1.get_neighbours current) a1.openList with
          | Option.none => (SRes.crash, a1)
          | some op2 => doSearch fuel { a1 with openList := op2 }

/-- Total number of grid cells, bounding the recursion depth of `__do_search`. -/
def AStar.numCells (a : AStar) : ℕ := (a.layout.map List.length).sum

/-- The state mutations at the top of a_star.py `AStar.search`: the open list
    is cleared and re-seeded with the start node and the closed list is
    cleared. The preceding line `self.__node_end.set_edge_to_parent(None)`
    calls a `dataclasses.replace`-based method on a frozen dataclass and
    discards the returned new node, so it leaves `__node_end` unchanged and
    contributes no state change here. -/
def resetPhase (a : AStar) : AStar :=
  { a with openList := [a.node_start], closedList := [] }

/-- a_star.py `AStar.search`, run with enough fuel for the whole grid. -/
def AStar.search (a : AStar) : SRes × AStar :=
  let a1 := resetPhase a
  doSearch (a1.numCells + 1) a1

/-- The backward walk of `get_result`: starting from a node, append its
    coordinates and follow `edge_to_parent.target` while the node has an edge
    and is not the start (the Python `while` loop, which visits its argument
    first). -/
def backtrack : Node → List (Int × Int)
  | Node.mk _ _ _ OptEdge.none => []
  | Node.mk x y t (OptEdge.some (Edge.mk tgt _ _ _)) =>
    if t = NodeType.START then []
    else (x, y) :: backtrack tgt

/-- a_star.py `AStar.get_result`; `none` embeds the raised
    `PathNotFoundException`, and the list is reversed into start-to-end
    order exactly as in the source. -/
def AStar.get_result (a : AStar) : Option (List (Int × Int)) :=
  match a.node_end.edge_to_parent with
  | OptEdge.none => Option.none
  | OptEdge.some e => some (backtrack e.target).reverse

/-- Iterated calls of `search` on the same instance (the state after `n`
    calls), used for the claims about repeated searches. -/
def searchN (a : AStar) : ℕ → AStar
  | 0 => a
  | n + 1 => ((searchN a n).search).2

/-- Coordinates of a node. -/
def coordsOf (n : Node) : Int × Int := (n.x, n.y)

/-- Grid adjacency: Chebyshev distance exactly 1 (the 8 orthogonal and
    diagonal neighbours). -/
def chebAdj (p q : Int × Int) : Prop :=
  max (q.1 - p.1).natAbs (q.2 - p.2).natAbs = 1

instance (p q : Int × Int) : Decidable (chebAdj p q) := by
  unfold chebAdj; infer_instance

/-- Kind of the grid cell at a coordinate, `none` outside the grid. -/
def kindAt (L : List (List Node)) (x y : Int) : Option NodeType :=
  if 0 ≤ x ∧ 0 ≤ y then (lookupL L x.toNat y.toNat).map Node.node_type
  else none

/-- A coordinate denotes a traversable cell: it is a grid cell and is not an
    obstacle. -/
def cellOK (L : List (List Node)) (c : Int × Int) : Prop :=
  ∃ k, kindAt L c.1 c.2 = some k ∧ k ≠ NodeType.OBSTACLE

/-- A sequence of cells from `src` to `dst`: consecutive cells are 8-adjacent
    and every cell on the sequence is a non-obstacle grid cell. -/
def PathTo (L : List (List Node)) (src dst : Int × Int) (p : List (Int × Int)) : Prop :=
  p.head? = some src ∧ p.getLast? = some dst ∧ List.Chain' chebAdj p ∧ ∀ c ∈ p, cellOK L c

/-- A sequence of cells from `src` ending at some cell of kind `End`. -/
def PathToAnEnd (L : List (List Node)) (src : Int × Int) (p : List (Int × Int)) : Prop :=
  p.head? = some src ∧ List.Chain' chebAdj p ∧ (∀ c ∈ p, cellOK L c) ∧
    ∃ d, p.getLast? = some d ∧ kindAt L d.1 d.2 = some NodeType.END

/-- Validity of a node's parent-edge annotation chain during a search whose
    start node sits at coordinate `s`: each node on the chain is a
    non-obstacle grid cell of the recorded kind, consecutive chain nodes are
    8-adjacent, and the chain terminates at the start node (the only node
    ever inserted without an annotation). -/
def chainOK (L : List (List Node)) (s : Int × Int) : Node → Prop
  | Node.mk x y t OptEdge.none =>
      kindAt L x y = some t ∧ t = NodeType.START ∧ (x, y) = s
  | Node.mk x y t (OptEdge.some (Edge.mk tgt _ _ _)) =>
      kindAt L x y = some t ∧ t ≠ NodeType.OBSTACLE ∧
        chebAdj (tgt.x, tgt.y) (x, y) ∧ chainOK L s tgt

/-- The coordinate trace of an annotation chain, from the node back to the
    chain's terminal node (both included). -/
def chainTrace : Node → List (Int × Int)
  | Node.mk x y _ OptEdge.none => [(x, y)]
  | Node.mk x y _ (OptEdge.some (Edge.mk tgt _ _ _)) => (x, y) :: chainTrace tgt

/-- Rectangularity of a layout: every row has the length of the first row. -/
def RectL (L : List (List Node)) : Prop :=
  ∀ row ∈ L, row.length = (L.headD []).length

/-- Rectangularity of the raw input grid. -/
def Rect (arr2d : List (List ℕ)) : Prop :=
  ∀ row ∈ arr2d, row.length = (arr2d.headD []).length

instance (arr2d : List (List ℕ)) : Decidable (Rect arr2d) := by
  unfold Rect
  infer_instance

/-- All coordinates of the grid cells of a layout. -/
def allCoords (L : List (List Node)) : List (Int × Int) :=
  (List.range L.length).flatMap (fun x =>
    (List.range (L.getD x []).length).map (fun y => (Int.ofNat x, Int.ofNat y)))

/-- Number of cells of a layout. -/
def numCellsL (L : List (List Node)) : ℕ := (L.map List.length).sum

/-- The instance produced by a successful construction (used to state
    closed concrete facts; `Node.empty`-based fallback for the error case). -/
def getA (arr2d : List (List ℕ)) : AStar :=
  match AStar.init arr2d with
  | Except.ok a => a
  | Except.error _ =>
    { layout := [], node_start := Node.empty, node_end := Node.empty, openList := [], closedList := [] }

/-- The example grid of the `AStar` docstring: start at `(2, 1)`, end at
    `(2, 5)`, obstacle column at `(1, 3)`, `(2, 3)`, `(3, 3)`. -/
def exGrid : List (List ℕ) :=
  [[0, 0, 0, 0, 0, 0, 0],
   [0, 0, 0, 3, 0, 0, 0],
   [0, 1, 0, 3, 0, 2, 0],
   [0, 0, 0, 3, 0, 0, 0],
   [0, 0, 0, 0, 0, 0, 0]]

/-- The eight neighbour offsets, in the order `__get_neighbours` lists them. -/
def nbOffsets : List (Int × Int) :=
  [(-1, 1), (0, 1), (1, 1), (1, 0), (1, -1), (0, -1), (-1, -1), (-1, 0)]

/-- A set of coordinates closed under traversable steps: together with a
    start member it confines every valid path (used to refute path
    existence). -/
def closedUnderSteps (L : List (List Node)) (S : List (Int × Int)) : Prop :=
  ∀ c ∈ S, ∀ o ∈ nbOffsets, ∀ k, kindAt L (c.1 + o.1) (c.2 + o.2) = some k →
    k ≠ NodeType.OBSTACLE → (c.1 + o.1, c.2 + o.2) ∈ S

instance (L : List (List Node)) (S : List (Int × Int)) : Decidable (closedUnderSteps L S) := by
  unfold closedUnderSteps
  infer_instance

/-- Well-formedness of a layout as built by the constructor: the node stored
    at position `(x, y)` carries exactly those coordinates and no edge
    annotation, and every stored node is found again at its own coordinates
    with its own kind. -/
def LayoutOK (L : List (List Node)) : Prop :=
  (∀ x y n, lookupL L x y = some n →
      n.x = (x : Int) ∧ n.y = (y : Int) ∧ n.edge_to_parent = OptEdge.none) ∧
  (∀ row ∈ L, ∀ n ∈ row,
      kindAt L n.x n.y = some n.node_type ∧ n.edge_to_parent = OptEdge.none)

/-- Properties of the designated start node as identified by the constructor. -/
def StartOK (L : List (List Node)) (s : Node) : Prop :=
  s.node_type = NodeType.START ∧ s.edge_to_parent = OptEdge.none ∧
  kindAt L s.x s.y = some NodeType.START

/-- The search-loop invariant of `__do_search`: relative to the fixed layout
    `L` and the designated start node `s`, every open- or closed-list node
    carries a valid annotation chain, closed nodes are never of kind `End`
    (the search returns as soon as an `End` node is selected), every
    traversable neighbour of a closed node has been recorded in the open or
    closed list, the start coordinate is recorded, coordinates in the two
    lists are pairwise distinct, and only the initial start node sits in the
    open list without an annotation. -/
structure InvA (L : List (List Node)) (s : Node) (a : AStar) : Prop where
  hLay : a.layout = L
  hOpen : ∀ n ∈ a.openList, chainOK L (coordsOf s) n
  hClosed : ∀ n ∈ a.closedList, chainOK L (coordsOf s) n
  hNoEnd : ∀ n ∈ a.closedList, n.node_type ≠ NodeType.END
  hClosure : ∀ c ∈ a.closedList, ∀ q : Int × Int, chebAdj (coordsOf c) q →
      ∀ k, kindAt L q.1 q.2 = some k → k ≠ NodeType.OBSTACLE →
        q ∈ (a.openList ++ a.closedList).map coordsOf
  hStartMem : coordsOf s ∈ (a.openList ++ a.closedList).map coordsOf
  hNodup : ((a.openList ++ a.closedList).map coordsOf).Nodup
  hEdgeNone : ∀ n ∈ a.openList, n.edge_to_parent = OptEdge.none → a.closedList = []
  hFirst : a.closedList = [] → a.openList = [s]

@[simp] theorem Node.x_mk (x y : Int) (t : NodeType) (e : OptEdge) : (Node.mk x y t e).x = x := rfl

@[simp] theorem Node.y_mk (x y : Int) (t : NodeType) (e : OptEdge) : (Node.mk x y t e).y = y := rfl

@[simp] theorem Node.node_type_mk (x y : Int) (t : NodeType) (e : OptEdge) : (Node.mk x y t e).node_type = t := rfl

@[simp] theorem Node.edge_to_parent_mk (x y : Int) (t : NodeType) (e : OptEdge) : (Node.mk x y t e).edge_to_parent = e := rfl

@[simp] theorem Edge.target_mk (n : Node) (g h : ℕ) (d : Bool) : (Edge.mk n g h d).target = n := rfl

/-- Eta rule for nodes. -/
theorem Node.eta (n : Node) : n = Node.mk n.x n.y n.node_type n.edge_to_parent := by
  cases n
  rfl

@[simp] theorem coordsOf_mk (x y : Int) (t : NodeType) (e : OptEdge) : coordsOf (Node.mk x y t e) = (x, y) := rfl

@[simp] theorem coordsOf_set_edge (n : Node) (e : OptEdge) : coordsOf (n.set_edge_to_parent e) = coordsOf n := rfl

@[simp] theorem node_type_set_edge (n : Node) (e : OptEdge) : (n.set_edge_to_parent e).node_type = n.node_type := rfl

@[simp] theorem edge_set_edge (n : Node) (e : OptEdge) : (n.set_edge_to_parent e).edge_to_parent = e := rfl

/-- Python node equality decides coordinate equality. -/
theorem nodeEq_iff (a b : Node) : nodeEq a b = true ↔ coordsOf a = coordsOf b := by
  simp [nodeEq, coordsOf, Prod.ext_iff]

/-- Python node membership decides coordinate membership. -/
theorem nodeMem_iff (v : Node) (l : List Node) :
    nodeMem v l = true ↔ coordsOf v ∈ l.map coordsOf := by
  simp only [nodeMem, List.any_eq_true, List.mem_map]
  constructor
  · rintro ⟨x, hx, he⟩
    exact ⟨x, hx, (nodeEq_iff x v).mp he⟩
  · rintro ⟨x, hx, he⟩
    exact ⟨x, hx, (nodeEq_iff x v).mpr he⟩

/-- Grid adjacency is equivalent to differing by one of the eight neighbour
    offsets. -/
theorem chebAdj_iff (p q : Int × Int) :
    chebAdj p q ↔ (q.1 - p.1, q.2 - p.2) ∈ nbOffsets := by
  simp only [chebAdj, nbOffsets, List.mem_cons, List.not_mem_nil, or_false, Prod.ext_iff]
  omega

/-- Grid adjacency is symmetric. -/
theorem chebAdj_symm (p q : Int × Int) : chebAdj p q ↔ chebAdj q p := by
  simp only [chebAdj]
  omega

/-- A chain-valid node is a non-obstacle grid cell of its recorded kind. -/
theorem chainOK_kind (L : List (List Node)) (s : Int × Int) (n : Node)
    (h : chainOK L s n) :
    kindAt L n.x n.y = some n.node_type ∧ n.node_type ≠ NodeType.OBSTACLE := by
  rcases n with ⟨x, y, t, (_ | ⟨⟨tgt, g, hh, d⟩⟩)⟩
  · simp only [chainOK] at h
    refine ⟨h.1, ?_⟩
    rw [h.2.1]
    intro hc
    exact NodeType.noConfusion hc
  · simp only [chainOK] at h
    exact ⟨h.1, h.2.1⟩

/-- On a valid chain, only a node of kind `Start` can lack an annotation. -/
theorem chainOK_edge_of_not_start (L : List (List Node)) (s : Int × Int) (n : Node)
    (h : chainOK L s n) (hns : n.node_type ≠ NodeType.START) :
    ∃ e, n.edge_to_parent = OptEdge.some e := by
  rcases n with ⟨x, y, t, (_ | e)⟩
  · simp only [chainOK] at h
    exact absurd h.2.1 hns
  · exact ⟨e, rfl⟩

/-- The annotation-chain trace starts with the node's own coordinates. -/
theorem chainTrace_head (n : Node) : (chainTrace n).head? = some (coordsOf n) := by
  rcases n with ⟨x, y, t, (_ | ⟨⟨tgt, g, hh, d⟩⟩)⟩ <;> rfl

/-- The annotation-chain trace is never empty. -/
theorem chainTrace_ne_nil (n : Node) : chainTrace n ≠ [] := by
  rcases n with ⟨x, y, t, (_ | ⟨⟨tgt, g, hh, d⟩⟩)⟩ <;> simp [chainTrace]

/-- A valid annotation chain ends at the start coordinate. -/
theorem chainOK_trace_getLast (L : List (List Node)) (s : Int × Int) :
    (n : Node) → chainOK L s n → (chainTrace n).getLast? = some s
  | Node.mk x y t OptEdge.none, h => by
    simp only [chainOK] at h
    simp only [chainTrace, List.getLast?_singleton]
    exact congrArg some h.2.2
  | Node.mk x y t (OptEdge.some (Edge.mk tgt g hh d)), h => by
    simp only [chainOK] at h
    have ih := chainOK_trace_getLast L s tgt h.2.2.2
    simp only [chainTrace]
    rcases he : chainTrace tgt with _ | ⟨c, cs⟩
    · exact absurd he (chainTrace_ne_nil tgt)
    · rw [he] at ih
      exact ih

/-- Every coordinate on a valid annotation chain is a traversable cell. -/
theorem chainOK_trace_cells (L : List (List Node)) (s : Int × Int) :
    (n : Node) → chainOK L s n → ∀ c ∈ chainTrace n, cellOK L c
  | Node.mk x y t OptEdge.none, h => by
    simp only [chainOK] at h
    intro c hc
    simp only [chainTrace, List.mem_singleton] at hc
    subst hc
    refine ⟨t, h.1, ?_⟩
    rw [h.2.1]
    intro hcn
    exact NodeType.noConfusion hcn
  | Node.mk x y t (OptEdge.some (Edge.mk tgt g hh d)), h => by
    simp only [chainOK] at h
    intro c hc
    simp only [chainTrace, List.mem_cons] at hc
    rcases hc with hc | hc
    · subst hc
      exact ⟨t, h.1, h.2.1⟩
    · exact chainOK_trace_cells L s tgt h.2.2.2 c hc

/-- Consecutive coordinates on a valid annotation chain are grid-adjacent
    (in backward orientation). -/
theorem chainOK_trace_chain (L : List (List Node)) (s : Int × Int) :
    (n : Node) → chainOK L s n → List.Chain' (fun a b => chebAdj b a) (chainTrace n)
  | Node.mk x y t OptEdge.none, _ => by
    simp [chainTrace]
  | Node.mk x y t (OptEdge.some (Edge.mk tgt g hh d)), h => by
    simp only [chainOK] at h
    have ih := chainOK_trace_chain L s tgt h.2.2.2
    simp only [chainTrace]
    rw [List.chain'_cons']
    refine ⟨?_, ih⟩
    intro b hb
    rw [chainTrace_head tgt] at hb
    simp only [Option.mem_def, Option.some.injEq] at hb
    subst hb
    exact h.2.2.1

/-- A valid annotation chain yields a path (in the claim's sense) from the
    start coordinate to the node's coordinates. -/
theorem chainOK_path (L : List (List Node)) (s : Int × Int) (n : Node)
    (h : chainOK L s n) : PathTo L s (coordsOf n) (chainTrace n).reverse := by
  refine ⟨?_, ?_, ?_, ?_⟩
  · rw [List.head?_reverse]
    exact chainOK_trace_getLast L s n h
  · rw [List.getLast?_reverse]
    exact chainTrace_head n
  · rw [List.chain'_reverse]
    have := chainOK_trace_chain L s n h
    exact List.Chain'.imp (fun a b hab => hab) this
  · intro c hc
    rw [List.mem_reverse] at hc
    exact chainOK_trace_cells L s n h c hc

/-- A step-closed coordinate set containing a path's head contains the whole
    path. -/
theorem path_confined (L : List (List Node)) (S : List (Int × Int))
    (hcl : closedUnderSteps L S) :
    ∀ p : List (Int × Int), List.Chain' chebAdj p → (∀ c ∈ p, cellOK L c) →
      ∀ src, p.head? = some src → src ∈ S → ∀ c ∈ p, c ∈ S := by
  intro p
  induction p with
  | nil =>
    intro _ _ src _ _ c hc
    exact absurd hc (List.not_mem_nil c)
  | cons a l ih =>
    intro hch hcells src hsrc hS c hc
    simp only [List.head?_cons, Option.some.injEq] at hsrc
    subst hsrc
    rw [List.mem_cons] at hc
    rcases hc with hc | hc
    · rw [hc]; exact hS
    · rcases hl : l with _ | ⟨b, l2⟩
      · rw [hl] at hc; exact absurd hc (List.not_mem_nil c)
      · subst hl
        rw [List.chain'_cons] at hch
        have hadj : chebAdj a b := hch.1
        have hcellb : cellOK L b := hcells b (by simp)
        rcases hcellb with ⟨k, hk, hkno⟩
        have hbS : b ∈ S := by
          have hoff := (chebAdj_iff a b).mp hadj
          have hstep := hcl a hS (b.1 - a.1, b.2 - a.2) hoff k
          have hb1 : a.1 + (b.1 - a.1) = b.1 := by ring
          have hb2 : a.2 + (b.2 - a.2) = b.2 := by ring
          rw [hb1, hb2] at hstep
          exact hstep hk hkno
        exact ih hch.2 (fun c2 hc2 => hcells c2 (List.mem_cons_of_mem a hc2)) b rfl hbS c hc

/-- Every coordinate carrying a cell kind is listed in `allCoords`. -/
theorem kindAt_mem_allCoords (L : List (List Node)) (x y : Int) (k : NodeType)
    (h : kindAt L x y = some k) : (x, y) ∈ allCoords L := by
  simp only [kindAt, lookupL] at h
  split at h
  · rename_i hnn
    rcases hL : L[x.toNat]? with _ | row
    · rw [hL] at h; simp at h
    · rw [hL] at h
      simp only [Option.some_bind] at h
      rcases hrow : row[y.toNat]? with _ | n
      · rw [hrow] at h; simp at h
      · have hxlt : x.toNat < L.length := (List.getElem?_eq_some_iff.mp hL).1
        have hylt : y.toNat < row.length := (List.getElem?_eq_some_iff.mp hrow).1
        refine List.mem_flatMap.mpr ⟨x.toNat, List.mem_range.mpr hxlt, ?_⟩
        refine List.mem_map.mpr ⟨y.toNat, ?_, ?_⟩
        · refine List.mem_range.mpr ?_
          have hgd : L.getD x.toNat [] = row := by
            rw [List.getD_eq_getElem?_getD, hL]
            rfl
          rw [hgd]
          exact hylt
        · have hx2 : Int.ofNat x.toNat = x := Int.toNat_of_nonneg hnn.1
          have hy2 : Int.ofNat y.toNat = y := Int.toNat_of_nonneg hnn.2
          rw [hx2, hy2]
  · exact absurd h (by simp)

/-- Indexing a list of rows by `range`/`getD` enumerates the row lengths. -/
theorem range_getD_len (l : List (List Node)) :
    (List.range l.length).map (fun i => (l.getD i []).length) = l.map List.length := by
  apply List.ext_getElem
  · simp
  · intro i h1 h2
    simp only [List.getElem_map, List.getElem_range]
    congr 1
    rw [List.getD_eq_getElem?_getD]
    rw [List.getElem?_eq_getElem (by simpa using h2)]
    rfl

/-- The coordinate list of a layout has as many entries as the layout has
    cells. -/
theorem allCoords_length (L : List (List Node)) : (allCoords L).length = numCellsL L := by
  simp only [allCoords, List.length_flatMap, numCellsL]
  rw [← range_getD_len]
  apply congrArg
  apply List.map_congr_left
  intro i _
  simp only [Function.comp_apply, List.length_map, List.length_range]

/-- Row lookup in the built layout. -/
theorem buildLayout_getElem (arr2d : List (List ℕ)) (x : ℕ) :
    (buildLayout arr2d)[x]? =
      arr2d[x]?.map (fun row => row.enum.map (fun py =>
        Node.mk (Int.ofNat x) (Int.ofNat py.1) (NodeType.from_value py.2) OptEdge.none)) := by
  simp only [buildLayout, List.getElem?_map, List.getElem?_enum]
  rcases arr2d[x]? with _ | row <;> rfl

/-- Cell lookup in the built layout. -/
theorem lookupL_buildLayout (arr2d : List (List ℕ)) (x y : ℕ) :
    lookupL (buildLayout arr2d) x y =
      (arr2d[x]?.bind (fun row => row[y]?)).map (fun v =>
        Node.mk (Int.ofNat x) (Int.ofNat y) (NodeType.from_value v) OptEdge.none) := by
  simp only [lookupL, buildLayout_getElem]
  rcases arr2d[x]? with _ | row
  · rfl
  · rcases hy : row[y]? with _ | v
    · simp [List.getElem?_map, List.getElem?_enum, hy]
    · simp [List.getElem?_map, List.getElem?_enum, hy]


/-- Unfolding of `kindAt` at nonnegative coordinates. -/
theorem kindAt_eq (L : List (List Node)) (x y : Int) (hx : 0 ≤ x) (hy : 0 ≤ y) :
    kindAt L x y = (lookupL L x.toNat y.toNat).map Node.node_type := by
  simp only [kindAt]
  rw [if_pos ⟨hx, hy⟩]

/-- The built layout is well-formed. -/
theorem layoutOK_buildLayout (arr2d : List (List ℕ)) : LayoutOK (buildLayout arr2d) := by
  constructor
  · intro x y n h
    rw [lookupL_buildLayout] at h
    rcases hv : arr2d[x]?.bind (fun row => row[y]?) with _ | v
    · rw [hv] at h
      exact Option.noConfusion h
    · rw [hv] at h
      simp only [Option.map_some', Option.some.injEq] at h
      rw [← h]
      exact ⟨rfl, rfl, rfl⟩
  · intro row hrow n hn
    simp only [buildLayout, List.mem_map] at hrow
    rcases hrow with ⟨px, hpx, hpe⟩
    rw [← hpe] at hn
    simp only [List.mem_map] at hn
    rcases hn with ⟨py, hpy, hne⟩
    have hx : arr2d[px.1]? = some px.2 := List.mem_enum_iff_getElem?.mp hpx
    have hy : px.2[py.1]? = some py.2 := List.mem_enum_iff_getElem?.mp hpy
    have hlook : lookupL (buildLayout arr2d) px.1 py.1 = some n := by
      rw [lookupL_buildLayout, hx]
      simp only [Option.some_bind, hy, Option.map_some']
      rw [← hne]
      rfl
    constructor
    · rw [← hne]
      simp only [Node.x_mk, Node.y_mk, Node.node_type_mk]
      rw [kindAt_eq _ _ _ (Int.ofNat_nonneg px.1) (Int.ofNat_nonneg py.1)]
      have ht1 : ((px.1 : Int)).toNat = px.1 := rfl
      have ht2 : ((py.1 : Int)).toNat = py.1 := rfl
      rw [ht1, ht2, hlook, ← hne]
      rfl
    · rw [← hne]
      rfl

/-- The built layout of a rectangular input is rectangular. -/
theorem rectL_buildLayout (arr2d : List (List ℕ)) (h : Rect arr2d) :
    RectL (buildLayout arr2d) := by
  intro row hrow
  simp only [buildLayout, List.mem_map] at hrow
  rcases hrow with ⟨px, hpx, hpe⟩
  have hlen : row.length = px.2.length := by
    rw [← hpe]; simp
  have hmem : px.2 ∈ arr2d := List.snd_mem_of_mem_enum hpx
  rw [hlen, h px.2 hmem]
  rcases arr2d with _ | ⟨r0, rest⟩
  · exact absurd hmem (List.not_mem_nil px.2)
  · simp only [buildLayout, List.enum_cons, List.map_cons, List.headD_cons]
    simp

/-- Number of cells of the built layout. -/
theorem numCellsL_buildLayout (arr2d : List (List ℕ)) :
    numCellsL (buildLayout arr2d) = (arr2d.map List.length).sum := by
  simp only [numCellsL, buildLayout, List.map_map]
  have hgen : ∀ (el : List (ℕ × List ℕ)), (List.map (List.length ∘ fun px =>
      List.map (fun py => Node.mk (px.1 : Int) (py.1 : Int)
        (NodeType.from_value py.2) OptEdge.none) px.2.enum) el).sum =
      (el.map (fun px => px.2.length)).sum := by
    intro el
    induction el with
    | nil => rfl
    | cons e es ih =>
      simp only [List.map_cons, List.sum_cons, ih, Function.comp_apply,
        List.length_map, List.enum_length]
  rw [hgen]
  have hgen2 : ∀ (l : List (List ℕ)) (k : ℕ),
      ((List.enumFrom k l).map (fun px => px.2.length)).sum = (l.map List.length).sum := by
    intro l
    induction l with
    | nil => intro k; rfl
    | cons r rs ih =>
      intro k
      simp only [List.enumFrom, List.map_cons, List.sum_cons, ih]
  exact hgen2 arr2d 0

/-- One row of the constructor scan: a produced node either was the incoming
    accumulator or is a satisfying member of the row. -/
theorem rowScan_some (p : Node → Bool) :
    ∀ (row : List Node) (acc : Option Node) (res : Node),
      row.foldl (fun acc2 n => if p n then some n else acc2) acc = some res →
      acc = some res ∨ (res ∈ row ∧ p res = true) := by
  intro row
  induction row with
  | nil => intro acc res h; exact Or.inl h
  | cons n rest ih =>
    intro acc res h
    simp only [List.foldl_cons] at h
    rcases ih _ _ h with hh | hh
    · by_cases hp : p n = true
      · rw [if_pos hp] at hh
        simp only [Option.some.injEq] at hh
        subst hh
        exact Or.inr ⟨List.mem_cons_self n rest, hp⟩
      · rw [if_neg hp] at hh
        exact Or.inl hh
    · exact Or.inr ⟨List.mem_cons_of_mem n hh.1, hh.2⟩

/-- One row of the constructor scan cannot drop a `some` accumulator. -/
theorem rowScan_some_stays (p : Node → Bool) :
    ∀ (row : List Node) (acc : Option Node), acc ≠ none →
      row.foldl (fun acc2 n => if p n then some n else acc2) acc ≠ none := by
  intro row
  induction row with
  | nil => intro acc h; exact h
  | cons n rest ih =>
    intro acc h
    simp only [List.foldl_cons]
    apply ih
    by_cases hp : p n = true
    · rw [if_pos hp]; exact Option.some_ne_none n
    · rw [if_neg hp]; exact h

/-- One row of the constructor scan finds a satisfying member. -/
theorem rowScan_finds (p : Node → Bool) :
    ∀ (row : List Node) (acc : Option Node) (n : Node), n ∈ row → p n = true →
      row.foldl (fun acc2 n2 => if p n2 then some n2 else acc2) acc ≠ none := by
  intro row
  induction row with
  | nil => intro acc n h; exact absurd h (List.not_mem_nil n)
  | cons m rest ih =>
    intro acc n h hp
    simp only [List.foldl_cons]
    rw [List.mem_cons] at h
    rcases h with h | h
    · subst h
      apply rowScan_some_stays
      rw [if_pos hp]
      exact Option.some_ne_none n
    · exact ih _ n h hp

/-- A node produced by the constructor scan is a satisfying member of the
    layout. -/
theorem scanLast_some (L : List (List Node)) (p : Node → Bool) (res : Node)
    (h : scanLast L p = some res) : (∃ row ∈ L, res ∈ row) ∧ p res = true := by
  simp only [scanLast] at h
  have hgen : ∀ (rows : List (List Node)) (acc : Option Node) (r : Node),
      rows.foldl (fun acc2 row => row.foldl (fun acc3 n => if p n then some n else acc3) acc2) acc = some r →
      acc = some r ∨ ((∃ row ∈ rows, r ∈ row) ∧ p r = true) := by
    intro rows
    induction rows with
    | nil => intro acc r hh; exact Or.inl hh
    | cons row rest ih =>
      intro acc r hh
      simp only [List.foldl_cons] at hh
      rcases ih _ _ hh with h2 | h2
      · rcases rowScan_some p row acc r h2 with h3 | h3
        · exact Or.inl h3
        · exact Or.inr ⟨⟨row, List.mem_cons_self row rest, h3.1⟩, h3.2⟩
      · exact Or.inr ⟨⟨h2.1.choose, List.mem_cons_of_mem row h2.1.choose_spec.1, h2.1.choose_spec.2⟩, h2.2⟩
  rcases hgen L none res h with h2 | h2
  · exact Option.noConfusion h2
  · exact h2

/-- The constructor scan fails exactly when no cell satisfies the predicate. -/
theorem scanLast_none_iff (L : List (List Node)) (p : Node → Bool) :
    scanLast L p = none ↔ ∀ row ∈ L, ∀ n ∈ row, p n = false := by
  constructor
  · intro h row hrow n hn
    by_contra hne
    have hp : p n = true := by
      rcases hb : p n with _ | _
      · exact absurd hb hne
      · rfl
    have hgen : ∀ (rows : List (List Node)) (acc : Option Node),
        (∃ row2 ∈ rows, ∃ m ∈ row2, p m = true) →
        rows.foldl (fun acc2 row2 => row2.foldl (fun acc3 n2 => if p n2 then some n2 else acc3) acc2) acc ≠ none := by
      intro rows
      induction rows with
      | nil =>
        intro acc hex
        rcases hex with ⟨r2, hr2, _⟩
        exact absurd hr2 (List.not_mem_nil r2)
      | cons row2 rest ih =>
        intro acc hex
        simp only [List.foldl_cons]
        rcases hex with ⟨r2, hr2, m, hm, hpm⟩
        rw [List.mem_cons] at hr2
        rcases hr2 with hr2 | hr2
        · subst hr2
          have hstep := rowScan_finds p r2 acc m hm hpm
          have hgen2 : ∀ (rows2 : List (List Node)) (acc2 : Option Node), acc2 ≠ none →
              rows2.foldl (fun acc3 row3 => row3.foldl (fun acc4 n2 => if p n2 then some n2 else acc4) acc3) acc2 ≠ none := by
            intro rows2
            induction rows2 with
            | nil => intro acc2 hacc; exact hacc
            | cons row3 rest3 ih3 =>
              intro acc2 hacc
              simp only [List.foldl_cons]
              exact ih3 _ (rowScan_some_stays p row3 acc2 hacc)
          exact hgen2 rest _ hstep
        · exact ih _ ⟨r2, hr2, m, hm, hpm⟩
    exact hgen L none ⟨row, hrow, n, hn, hp⟩ h
  · intro h
    have hgen : ∀ (rows : List (List Node)) (acc : Option Node),
        (∀ row ∈ rows, ∀ n ∈ row, p n = false) →
        rows.foldl (fun acc2 row2 => row2.foldl (fun acc3 n2 => if p n2 then some n2 else acc3) acc2) acc = acc := by
      intro rows
      induction rows with
      | nil => intro acc _; rfl
      | cons row2 rest ih =>
        intro acc hall
        simp only [List.foldl_cons]
        have hrow2 : row2.foldl (fun acc3 n2 => if p n2 then some n2 else acc3) acc = acc := by
          have : ∀ (r : List Node) (acc3 : Option Node), (∀ n ∈ r, p n = false) →
              r.foldl (fun acc4 n2 => if p n2 then some n2 else acc4) acc3 = acc3 := by
            intro r
            induction r with
            | nil => intro acc3 _; rfl
            | cons m ms ih2 =>
              intro acc3 hall2
              simp only [List.foldl_cons]
              rw [if_neg (by rw [hall2 m (List.mem_cons_self m ms)]; exact Bool.false_ne_true)]
              exact ih2 _ (fun n2 hn2 => hall2 n2 (List.mem_cons_of_mem m hn2))
          exact this row2 acc (hall row2 (List.mem_cons_self row2 rest))
        rw [hrow2]
        exact ih _ (fun r hr n2 hn2 => hall r (List.mem_cons_of_mem row2 hr) n2 hn2)
    simp only [scanLast]
    exact hgen L none h

/-- Arithmetic characterization of the bounds check. -/
theorem is_in_bounds_iff (a : AStar) (x y : Int) :
    a.is_in_bounds x y = true ↔
      0 ≤ x ∧ x.toNat < a.get_len_x ∧ 0 ≤ y ∧ y.toNat < a.get_len_y := by
  simp only [AStar.is_in_bounds]
  by_cases hc : x < 0 ∨ x > (a.get_len_x : Int) - 1 ∨ y < 0 ∨ y > (a.get_len_y : Int) - 1
  · rw [if_pos hc]
    simp only [Bool.false_eq_true, false_iff]
    omega
  · rw [if_neg hc]
    simp only [true_iff]
    omega

/-- A coordinate with a cell kind passes the bounds check (rectangular
    layout). -/
theorem in_bounds_of_kindAt (a : AStar) (L : List (List Node)) (hLay : a.layout = L)
    (hRect : RectL L) (x y : Int) (k : NodeType) (h : kindAt L x y = some k) :
    a.is_in_bounds x y = true := by
  simp only [kindAt, lookupL] at h
  split at h
  · rename_i hnn
    rcases hL : L[x.toNat]? with _ | row
    · rw [hL] at h
      exact Option.noConfusion h
    · rw [hL] at h
      simp only [Option.some_bind] at h
      rcases hrow : row[y.toNat]? with _ | n
      · rw [hrow] at h
        exact Option.noConfusion h
      · have hxlt : x.toNat < L.length := (List.getElem?_eq_some_iff.mp hL).1
        have hylt : y.toNat < row.length := (List.getElem?_eq_some_iff.mp hrow).1
        have hrmem : row ∈ L := by
          have := List.getElem?_eq_some_iff.mp hL
          rcases this with ⟨hlt, hval⟩
          rw [← hval]
          exact List.getElem_mem hlt
        have hrlen : row.length = (L.headD []).length := hRect row hrmem
        rw [is_in_bounds_iff]
        refine ⟨hnn.1, ?_, hnn.2, ?_⟩
        · simp only [AStar.get_len_x, hLay]
          exact hxlt
        · simp only [AStar.get_len_y, hLay]
          rw [← hrlen]
          exact hylt
  · exact absurd h (by simp)

/-- Within bounds, the layout lookup succeeds (rectangular layout). -/
theorem lookup_of_in_bounds (a : AStar) (L : List (List Node)) (hLay : a.layout = L)
    (hRect : RectL L) (x y : Int) (hb : a.is_in_bounds x y = true) :
    ∃ n, lookupL L x.toNat y.toNat = some n := by
  rw [is_in_bounds_iff] at hb
  rcases hb with ⟨hx0, hxlt, hy0, hylt⟩
  simp only [AStar.get_len_x, hLay] at hxlt
  rcases hL : L[x.toNat]? with _ | row
  · exact absurd hL (by simp [List.getElem?_eq_none_iff]; omega)
  · have hrmem : row ∈ L := by
      rcases List.getElem?_eq_some_iff.mp hL with ⟨hlt, hval⟩
      rw [← hval]
      exact List.getElem_mem hlt
    have hrlen : row.length = (L.headD []).length := hRect row hrmem
    have hylt2 : y.toNat < row.length := by
      rw [hrlen]
      simpa [AStar.get_len_y, hLay] using hylt
    rcases hrow : row[y.toNat]? with _ | n
    · exact absurd hrow (by simp [List.getElem?_eq_none_iff]; omega)
    · exact ⟨n, by simp [lookupL, hL, hrow]⟩

/-- Characterization of `__get_node_or_none` over a rectangular layout. -/
theorem get_node_or_none_some (a : AStar) (L : List (List Node)) (hLay : a.layout = L)
    (hRect : RectL L) (x y : Int) (n : Node) :
    a.get_node_or_none x y = some n ↔
      0 ≤ x ∧ 0 ≤ y ∧ lookupL L x.toNat y.toNat = some n := by
  simp only [AStar.get_node_or_none]
  constructor
  · intro h
    split at h
    · rename_i hb
      rw [is_in_bounds_iff] at hb
      rw [hLay] at h
      exact ⟨hb.1, hb.2.2.1, h⟩
    · exact Option.noConfusion h
  · rintro ⟨hx0, hy0, hlook⟩
    have hkind : kindAt L x y = some n.node_type := by
      rw [kindAt_eq L x y hx0 hy0, hlook]
      rfl
    have hb := in_bounds_of_kindAt a L hLay hRect x y n.node_type hkind
    rw [if_pos hb, hLay]
    exact hlook

/-- The nodes a lookup returns carry their own position (well-formed layout). -/
theorem lookupL_coords (L : List (List Node)) (hOK : LayoutOK L) (x y : ℕ) (n : Node)
    (h : lookupL L x y = some n) :
    n.x = (x : Int) ∧ n.y = (y : Int) ∧ n.edge_to_parent = OptEdge.none ∧
      kindAt L n.x n.y = some n.node_type := by
  rcases hOK.1 x y n h with ⟨h1, h2, h3⟩
  refine ⟨h1, h2, h3, ?_⟩
  rw [h1, h2]
  rw [kindAt_eq L _ _ (Int.ofNat_nonneg x) (Int.ofNat_nonneg y)]
  have ht1 : ((x : Int)).toNat = x := rfl
  have ht2 : ((y : Int)).toNat = y := rfl
  rw [ht1, ht2, h]
  rfl

/-- `kindAt` only succeeds at nonnegative coordinates. -/
theorem kindAt_nonneg (L : List (List Node)) (x y : Int) (k : NodeType)
    (h : kindAt L x y = some k) : 0 ≤ x ∧ 0 ≤ y := by
  simp only [kindAt] at h
  split at h
  · rename_i hnn; exact hnn
  · exact absurd h (by simp)

/-- The neighbour fold of `__get_neighbours` is a `filterMap`. -/
theorem collect_eq_filterMap (a : AStar) :
    ∀ (l : List (Int × Int × Bool)),
      l.foldr (fun c acc => match a.get_node_or_none c.1 c.2.1 with
        | none => acc
        | some nb => (nb, c.2.2) :: acc) [] =
      l.filterMap (fun c => (a.get_node_or_none c.1 c.2.1).map (fun nb => (nb, c.2.2))) := by
  intro l
  induction l with
  | nil => rfl
  | cons c cs ih =>
    rcases h : a.get_node_or_none c.1 c.2.1 with _ | nb
    · simp only [List.foldr_cons, List.filterMap_cons, h, ih, Option.map_none']
    · simp only [List.foldr_cons, List.filterMap_cons, h, ih, Option.map_some']

/-- `__get_neighbours` as a `filterMap` over the eight aligned coordinates. -/
theorem get_neighbours_eq (a : AStar) (node : Node) :
    a.get_neighbours node =
      ([(node.x - 1, node.y + 1, true), (node.x, node.y + 1, false),
        (node.x + 1, node.y + 1, true), (node.x + 1, node.y, false),
        (node.x + 1, node.y - 1, true), (node.x, node.y - 1, false),
        (node.x - 1, node.y - 1, true), (node.x - 1, node.y, false)] :
          List (Int × Int × Bool)).filterMap
        (fun c => (a.get_node_or_none c.1 c.2.1).map (fun nb => (nb, c.2.2))) := by
  simp only [AStar.get_neighbours]
  exact collect_eq_filterMap a _

/-- A returned neighbour is an annotation-free grid node adjacent to the
    queried node. -/
theorem get_neighbours_sound (a : AStar) (L : List (List Node)) (hLay : a.layout = L)
    (hOK : LayoutOK L) (cur nb : Node) (d : Bool)
    (h : (nb, d) ∈ a.get_neighbours cur) :
    nb.edge_to_parent = OptEdge.none ∧ kindAt L nb.x nb.y = some nb.node_type ∧
      chebAdj (coordsOf cur) (coordsOf nb) := by
  rw [get_neighbours_eq] at h
  rcases List.mem_filterMap.mp h with ⟨c, hc, hfc⟩
  rcases hg : a.get_node_or_none c.1 c.2.1 with _ | nb2
  · rw [hg] at hfc
    exact Option.noConfusion hfc
  · rw [hg] at hfc
    simp only [Option.map_some', Option.some.injEq, Prod.mk.injEq] at hfc
    rw [hfc.1] at hg
    simp only [AStar.get_node_or_none] at hg
    split at hg
    · rename_i hb
      rw [is_in_bounds_iff] at hb
      rw [hLay] at hg
      rcases lookupL_coords L hOK c.1.toNat c.2.1.toNat nb hg with ⟨hx, hy, he, hkind⟩
      have hx2 : nb.x = c.1 := by rw [hx]; omega
      have hy2 : nb.y = c.2.1 := by rw [hy]; omega
      refine ⟨he, hkind, ?_⟩
      simp only [List.mem_cons, List.not_mem_nil, or_false] at hc
      rcases hc with hc | hc | hc | hc | hc | hc | hc | hc <;>
        (subst hc; dsimp only at hx2 hy2; simp only [chebAdj, coordsOf]; omega)
    · exact Option.noConfusion hg

/-- Every grid cell adjacent to a node is returned by `__get_neighbours`
    (rectangular well-formed layout). -/
theorem get_neighbours_complete (a : AStar) (L : List (List Node)) (hLay : a.layout = L)
    (hRect : RectL L) (hOK : LayoutOK L) (cur : Node) (q : Int × Int)
    (hadj : chebAdj (coordsOf cur) q) (k : NodeType) (hk : kindAt L q.1 q.2 = some k) :
    ∃ nb d, (nb, d) ∈ a.get_neighbours cur ∧ coordsOf nb = q ∧ nb.node_type = k ∧
      nb.edge_to_parent = OptEdge.none := by
  have hnn := kindAt_nonneg L q.1 q.2 k hk
  have hb : a.is_in_bounds q.1 q.2 = true := in_bounds_of_kindAt a L hLay hRect q.1 q.2 k hk
  rcases lookup_of_in_bounds a L hLay hRect q.1 q.2 hb with ⟨nb, hlook⟩
  have hget : a.get_node_or_none q.1 q.2 = some nb := by
    simp only [AStar.get_node_or_none]
    rw [if_pos hb, hLay]
    exact hlook
  rcases lookupL_coords L hOK q.1.toNat q.2.toNat nb hlook with ⟨hx, hy, he, hkind⟩
  have hx2 : nb.x = q.1 := by rw [hx]; omega
  have hy2 : nb.y = q.2 := by rw [hy]; omega
  have hco : coordsOf nb = q := by
    simp only [coordsOf, hx2, hy2]
  have ht : nb.node_type = k := by
    rw [hx2, hy2] at hkind
    rw [hkind] at hk
    exact (Option.some.injEq _ _).mp hk
  have hoff := (chebAdj_iff (coordsOf cur) q).mp hadj
  simp only [coordsOf, nbOffsets, List.mem_cons, List.not_mem_nil, or_false,
    Prod.mk.injEq] at hoff
  rw [get_neighbours_eq]
  rcases hoff with ho | ho | ho | ho | ho | ho | ho | ho
  · refine ⟨nb, true, List.mem_filterMap.mpr ⟨(cur.x - 1, cur.y + 1, true), by simp, ?_⟩, hco, ht, he⟩
    have hq1 : q.1 = cur.x - 1 := by omega
    have hq2 : q.2 = cur.y + 1 := by omega
    rw [hq1, hq2] at hget
    simp only [hget, Option.map_some']
  · refine ⟨nb, false, List.mem_filterMap.mpr ⟨(cur.x, cur.y + 1, false), by simp, ?_⟩, hco, ht, he⟩
    have hq1 : q.1 = cur.x := by omega
    have hq2 : q.2 = cur.y + 1 := by omega
    rw [hq1, hq2] at hget
    simp only [hget, Option.map_some']
  · refine ⟨nb, true, List.mem_filterMap.mpr ⟨(cur.x + 1, cur.y + 1, true), by simp, ?_⟩, hco, ht, he⟩
    have hq1 : q.1 = cur.x + 1 := by omega
    have hq2 : q.2 = cur.y + 1 := by omega
    rw [hq1, hq2] at hget
    simp only [hget, Option.map_some']
  · refine ⟨nb, false, List.mem_filterMap.mpr ⟨(cur.x + 1, cur.y, false), by simp, ?_⟩, hco, ht, he⟩
    have hq1 : q.1 = cur.x + 1 := by omega
    have hq2 : q.2 = cur.y := by omega
    rw [hq1, hq2] at hget
    simp only [hget, Option.map_some']
  · refine ⟨nb, true, List.mem_filterMap.mpr ⟨(cur.x + 1, cur.y - 1, true), by simp, ?_⟩, hco, ht, he⟩
    have hq1 : q.1 = cur.x + 1 := by omega
    have hq2 : q.2 = cur.y - 1 := by omega
    rw [hq1, hq2] at hget
    simp only [hget, Option.map_some']
  · refine ⟨nb, false, List.mem_filterMap.mpr ⟨(cur.x, cur.y - 1, false), by simp, ?_⟩, hco, ht, he⟩
    have hq1 : q.1 = cur.x := by omega
    have hq2 : q.2 = cur.y - 1 := by omega
    rw [hq1, hq2] at hget
    simp only [hget, Option.map_some']
  · refine ⟨nb, true, List.mem_filterMap.mpr ⟨(cur.x - 1, cur.y - 1, true), by simp, ?_⟩, hco, ht, he⟩
    have hq1 : q.1 = cur.x - 1 := by omega
    have hq2 : q.2 = cur.y - 1 := by omega
    rw [hq1, hq2] at hget
    simp only [hget, Option.map_some']
  · refine ⟨nb, false, List.mem_filterMap.mpr ⟨(cur.x - 1, cur.y, false), by simp, ?_⟩, hco, ht, he⟩
    have hq1 : q.1 = cur.x - 1 := by omega
    have hq2 : q.2 = cur.y := by omega
    rw [hq1, hq2] at hget
    simp only [hget, Option.map_some']

/-- Boolean bridge for `is_start`. -/
theorem is_start_iff (n : Node) : n.is_start = true ↔ n.node_type = NodeType.START := by
  simp [Node.is_start]

/-- Boolean bridge for `is_end`. -/
theorem is_end_iff (n : Node) : n.is_end = true ↔ n.node_type = NodeType.END := by
  simp [Node.is_end]

/-- Boolean bridge for `is_obstacle`. -/
theorem is_obstacle_iff (n : Node) : n.is_obstacle = true ↔ n.node_type = NodeType.OBSTACLE := by
  simp [Node.is_obstacle]

/-- Boolean bridge for `has_edge_to_parent`. -/
theorem has_edge_iff (n : Node) :
    n.has_edge_to_parent = false ↔ n.edge_to_parent = OptEdge.none := by
  simp only [Node.has_edge_to_parent]
  rcases n.edge_to_parent with _ | e
  · simp
  · simp

/-- `__calc_g` succeeds on every chain-valid parent. -/
theorem calc_g_some (L : List (List Node)) (s : Int × Int) (cur : Node) (d : Bool)
    (h : chainOK L s cur) : ∃ g, AStar.calc_g cur d = some g := by
  rcases hce : cur.edge_to_parent with _ | e
  · have hst : cur.node_type = NodeType.START := by
      rcases cur with ⟨x, y, t, (_ | e2)⟩
      · simp only [chainOK] at h
        exact h.2.1
      · exact Option.noConfusion (congrArg (fun o => match o with
          | OptEdge.none => (none : Option Unit)
          | OptEdge.some _ => some ()) hce)
    refine ⟨0, ?_⟩
    simp only [AStar.calc_g]
    rw [if_pos ⟨(has_edge_iff cur).mpr hce, hst⟩]
  · refine ⟨e.g + (if d then 14 else 10), ?_⟩
    simp only [AStar.calc_g]
    have hcond : ¬(cur.has_edge_to_parent = false ∧ cur.node_type = NodeType.START) := by
      intro hcond
      rw [has_edge_iff] at hcond
      rw [hce] at hcond
      exact OptEdge.noConfusion hcond.1
    rw [if_neg hcond, hce]

/-- The Python `min` returns an element of the open list whenever every key
    evaluation succeeds. -/
theorem selectMin_mem :
    ∀ (xs : List Node) (x : Node),
      (∀ n ∈ x :: xs, (get_f_or_zero_if_start n).isSome = true) →
      ∃ cur, selectMin x xs = some cur ∧ cur ∈ x :: xs := by
  intro xs
  induction xs with
  | nil =>
    intro x h
    rcases hk : get_f_or_zero_if_start x with _ | k
    · have := h x (List.mem_cons_self x [])
      rw [hk] at this
      exact absurd this (by simp)
    · exact ⟨x, by simp [selectMin, hk], List.mem_cons_self x []⟩
  | cons n rest ih =>
    intro x h
    rcases hkx : get_f_or_zero_if_start x with _ | kx
    · have := h x (List.mem_cons_self x (n :: rest))
      rw [hkx] at this
      exact absurd this (by simp)
    · rcases hkn : get_f_or_zero_if_start n with _ | kn
      · have := h n (by simp)
        rw [hkn] at this
        exact absurd this (by simp)
      · have hstep : selectMin x (n :: rest) = selectMin (if fLt kn kx then n else x) rest := by
          simp only [selectMin, hkx, hkn]
        have hhyp : ∀ m ∈ (if fLt kn kx then n else x) :: rest,
            (get_f_or_zero_if_start m).isSome = true := by
          intro m hm
          rw [List.mem_cons] at hm
          rcases hm with hm | hm
          · subst hm
            by_cases hf : fLt kn kx
            · rw [if_pos hf, hkn]; rfl
            · rw [if_neg hf, hkx]; rfl
          · exact h m (by simp [hm])
        rcases ih (if fLt kn kx then n else x) hhyp with ⟨cur, hsel, hmem⟩
        refine ⟨cur, by rw [hstep]; exact hsel, ?_⟩
        rw [List.mem_cons] at hmem
        rcases hmem with hmem | hmem
        · by_cases hf : fLt kn kx
          · rw [if_pos hf] at hmem
            subst hmem
            simp
          · rw [if_neg hf] at hmem
            subst hmem
            simp
        · simp [hmem]

/-- `list.remove` keeps a sublist. -/
theorem removeFirst_subset (l : List Node) (v : Node) : removeFirst l v ⊆ l :=
  List.eraseP_subset l

/-- Removing a list member with distinct coordinates is a permutation
    decomposition. -/
theorem removeFirst_perm (l : List Node) (v : Node) (hv : v ∈ l)
    (hnd : (l.map coordsOf).Nodup) : l.Perm (v :: removeFirst l v) := by
  have hpv : (fun x => nodeEq x v) v = true := by simp [nodeEq]
  rcases @List.exists_of_eraseP Node (fun x => nodeEq x v) l v hv hpv with
    ⟨a2, l1, l2, hnb, hpa, hle, hep⟩
  have ha2 : a2 = v := by
    have hmem : a2 ∈ l := by
      rw [hle]
      exact List.mem_append_right l1 (List.mem_cons_self a2 l2)
    have hco : coordsOf a2 = coordsOf v := (nodeEq_iff a2 v).mp hpa
    exact List.inj_on_of_nodup_map hnd hmem hv hco
  subst ha2
  simp only [removeFirst]
  rw [hep, hle]
  exact List.perm_middle

/-- The conditional in-place replacement of the open list: it succeeds on
    annotation-carrying lists, preserves the coordinate sequence, and only
    introduces the replacement node. -/
theorem replaceIfBetter_spec (nwe : Node) (g : ℕ) :
    ∀ (l : List Node), (∀ n ∈ l, n.edge_to_parent ≠ OptEdge.none) →
      nodeMem nwe l = true →
      ∃ l2, replaceIfBetter nwe g l = some l2 ∧
        l2.map coordsOf = l.map coordsOf ∧
        (∀ n ∈ l2, n ∈ l ∨ n = nwe) := by
  intro l
  induction l with
  | nil =>
    intro _ hmem
    simp [nodeMem] at hmem
  | cons x xs ih =>
    intro he hmem
    by_cases hx : nodeEq x nwe = true
    · rcases hxe : x.edge_to_parent with _ | e
      · exact absurd hxe (he x (List.mem_cons_self x xs))
      · refine ⟨if g < e.g then nwe :: xs else x :: xs, ?_, ?_, ?_⟩
        · simp only [replaceIfBetter, hx, if_pos, hxe]
        · by_cases hg : g < e.g
          · rw [if_pos hg]
            simp only [List.map_cons]
            rw [(nodeEq_iff x nwe).mp hx]
          · rw [if_neg hg]
        · intro n hn
          by_cases hg : g < e.g
          · rw [if_pos hg] at hn
            rw [List.mem_cons] at hn
            rcases hn with hn | hn
            · exact Or.inr hn
            · exact Or.inl (List.mem_cons_of_mem x hn)
          · rw [if_neg hg] at hn
            exact Or.inl hn
    · have hxb : nodeEq x nwe = false := by
        rcases hb : nodeEq x nwe with _ | _
        · rfl
        · exact absurd hb hx
      have hmem2 : nodeMem nwe xs = true := by
        simp only [nodeMem, List.any_cons, hxb, Bool.false_or] at hmem
        exact hmem
      rcases ih (fun n hn => he n (List.mem_cons_of_mem x hn)) hmem2 with ⟨l2, hrep, hmap, hsub⟩
      refine ⟨x :: l2, ?_, ?_, ?_⟩
      · simp only [replaceIfBetter, hxb, Bool.false_eq_true, if_false, hrep, Option.map_some']
      · simp only [List.map_cons, hmap]
      · intro n hn
        rw [List.mem_cons] at hn
        rcases hn with hn | hn
        · exact Or.inl (by rw [hn]; exact List.mem_cons_self x xs)
        · rcases hsub n hn with h2 | h2
          · exact Or.inl (List.mem_cons_of_mem x h2)
          · exact Or.inr h2

/-- Attaching a fresh edge to a grid neighbour of a chain-valid parent yields
    a chain-valid node. -/
theorem chainOK_set_edge (L : List (List Node)) (s : Int × Int) (nb cur : Node)
    (g h : ℕ) (d : Bool)
    (hk : kindAt L nb.x nb.y = some nb.node_type) (hno : nb.node_type ≠ NodeType.OBSTACLE)
    (ha : chebAdj (coordsOf cur) (coordsOf nb)) (hc : chainOK L s cur) :
    chainOK L s (nb.set_edge_to_parent (OptEdge.some (Edge.mk cur g h d))) := by
  rcases nb with ⟨x, y, t, e⟩
  rcases cur with ⟨cx, cy, ct, ce⟩
  simp only [Node.set_edge_to_parent, Node.x_mk, Node.y_mk, Node.node_type_mk]
  simp only [chainOK]
  simp only [Node.x_mk, Node.y_mk, Node.node_type_mk] at hk
  refine ⟨hk, hno, ?_, hc⟩
  simp only [coordsOf_mk] at ha
  exact ha

/-- The neighbour-processing step of `__do_search` succeeds on chain-valid
    state and preserves the open-list invariants; the processed neighbour is
    afterwards recorded unless it was skipped as an obstacle or as closed. -/
theorem processNb_spec (a : AStar) (L : List (List Node)) (s : Int × Int)
    (hLay : a.layout = L)
    (cur : Node) (hcur : chainOK L s cur)
    (nb : Node × Bool)
    (hnbE : nb.1.edge_to_parent = OptEdge.none)
    (hnbK : kindAt L nb.1.x nb.1.y = some nb.1.node_type)
    (hnbA : chebAdj (coordsOf cur) (coordsOf nb.1))
    (acc : List Node)
    (haccC : ∀ n ∈ acc, chainOK L s n)
    (haccE : ∀ n ∈ acc, n.edge_to_parent ≠ OptEdge.none) :
    ∃ acc2, processNb a cur acc nb = some acc2 ∧
      (∀ n ∈ acc2, chainOK L s n) ∧
      (∀ n ∈ acc2, n.edge_to_parent ≠ OptEdge.none) ∧
      (acc2.map coordsOf = acc.map coordsOf ∨
        (acc2.map coordsOf = acc.map coordsOf ++ [coordsOf nb.1] ∧
          coordsOf nb.1 ∉ acc.map coordsOf ∧
          coordsOf nb.1 ∉ a.closedList.map coordsOf)) ∧
      (nb.1.is_obstacle = true ∨ coordsOf nb.1 ∈ a.closedList.map coordsOf ∨
        coordsOf nb.1 ∈ acc2.map coordsOf) := by
  by_cases hskip : (nb.1.is_obstacle = true ∨ nodeMem nb.1 a.closedList = true)
  · refine ⟨acc, ?_, haccC, haccE, Or.inl rfl, ?_⟩
    · simp only [processNb]
      rw [if_pos (by simpa using hskip)]
    · rcases hskip with hskip | hskip
      · exact Or.inl hskip
      · exact Or.inr (Or.inl ((nodeMem_iff nb.1 a.closedList).mp hskip))
  · push_neg at hskip
    have hobs : nb.1.is_obstacle = false := by
      rcases hb : nb.1.is_obstacle with _ | _
      · rfl
      · exact absurd hb hskip.1
    have hclo : nodeMem nb.1 a.closedList = false := by
      rcases hb : nodeMem nb.1 a.closedList with _ | _
      · rfl
      · exact absurd hb hskip.2
    rcases calc_g_some L s cur nb.2 hcur with ⟨g, hg⟩
    have hnoobs : nb.1.node_type ≠ NodeType.OBSTACLE := by
      intro hcon
      rw [← is_obstacle_iff] at hcon
      rw [hobs] at hcon
      exact Bool.noConfusion hcon
    have hnwe := chainOK_set_edge L s nb.1 cur g (a.calc_h nb.1) nb.2 hnbK hnoobs hnbA hcur
    by_cases hmem : nodeMem (nb.1.set_edge_to_parent (OptEdge.some
        (Edge.mk cur g (a.calc_h nb.1) nb.2))) acc = true
    · rcases replaceIfBetter_spec (nb.1.set_edge_to_parent (OptEdge.some
          (Edge.mk cur g (a.calc_h nb.1) nb.2))) g acc haccE hmem with ⟨l2, hrep, hmap, hsub⟩
      refine ⟨l2, ?_, ?_, ?_, Or.inl hmap, ?_⟩
      · simp only [processNb]
        rw [if_neg (by simpa using hskip), hg]
        simp only [hmem]
        rw [if_neg (by simp)]
        exact hrep
      · intro n hn
        rcases hsub n hn with h2 | h2
        · exact haccC n h2
        · rw [h2]; exact hnwe
      · intro n hn
        rcases hsub n hn with h2 | h2
        · exact haccE n h2
        · rw [h2]
          simp only [edge_set_edge]
          intro hcon
          exact OptEdge.noConfusion hcon
      · refine Or.inr (Or.inr ?_)
        rw [hmap]
        have := (nodeMem_iff _ acc).mp hmem
        simpa using this
    · have hmemb : nodeMem (nb.1.set_edge_to_parent (OptEdge.some
          (Edge.mk cur g (a.calc_h nb.1) nb.2))) acc = false := by
        rcases hb : nodeMem (nb.1.set_edge_to_parent (OptEdge.some
            (Edge.mk cur g (a.calc_h nb.1) nb.2))) acc with _ | _
        · rfl
        · exact absurd hb hmem
      refine ⟨acc ++ [nb.1.set_edge_to_parent (OptEdge.some
          (Edge.mk cur g (a.calc_h nb.1) nb.2))], ?_, ?_, ?_, ?_, ?_⟩
      · simp only [processNb]
        rw [if_neg (by simpa using hskip), hg]
        simp only [hmemb]
        rw [if_pos (by simp)]
      · intro n hn
        rw [List.mem_append] at hn
        rcases hn with hn | hn
        · exact haccC n hn
        · rw [List.mem_singleton] at hn
          rw [hn]
          exact hnwe
      · intro n hn
        rw [List.mem_append] at hn
        rcases hn with hn | hn
        · exact haccE n hn
        · rw [List.mem_singleton] at hn
          rw [hn]
          simp only [edge_set_edge]
          intro hcon
          exact OptEdge.noConfusion hcon
      · refine Or.inr ⟨?_, ?_, ?_⟩
        · simp
        · intro hcon
          have : nodeMem (nb.1.set_edge_to_parent (OptEdge.some
              (Edge.mk cur g (a.calc_h nb.1) nb.2))) acc = true := by
            rw [nodeMem_iff]
            simpa using hcon
          rw [this] at hmemb
          exact Bool.noConfusion hmemb
        · intro hcon
          have : nodeMem nb.1 a.closedList = true := (nodeMem_iff nb.1 a.closedList).mpr hcon
          rw [this] at hclo
          exact Bool.noConfusion hclo
      · refine Or.inr (Or.inr ?_)
        simp

/-- The whole neighbour loop of `__do_search`: it succeeds on chain-valid
    state, preserves the open-list invariants and coordinate distinctness,
    never drops recorded coordinates, and records every non-obstacle
    non-closed neighbour. -/
theorem expandLoop_spec (a : AStar) (L : List (List Node)) (s : Int × Int)
    (hLay : a.layout = L) (cur : Node) (hcur : chainOK L s cur) :
    ∀ (nbs : List (Node × Bool)) (acc : List Node),
      (∀ nb ∈ nbs, nb.1.edge_to_parent = OptEdge.none ∧
        kindAt L nb.1.x nb.1.y = some nb.1.node_type ∧
        chebAdj (coordsOf cur) (coordsOf nb.1)) →
      (∀ n ∈ acc, chainOK L s n) →
      (∀ n ∈ acc, n.edge_to_parent ≠ OptEdge.none) →
      ((acc ++ a.closedList).map coordsOf).Nodup →
      ∃ op2, expandLoop a cur nbs acc = some op2 ∧
        (∀ n ∈ op2, chainOK L s n) ∧
        (∀ n ∈ op2, n.edge_to_parent ≠ OptEdge.none) ∧
        ((op2 ++ a.closedList).map coordsOf).Nodup ∧
        (∀ c ∈ acc.map coordsOf, c ∈ op2.map coordsOf) ∧
        (∀ nb ∈ nbs, nb.1.is_obstacle = true ∨
          coordsOf nb.1 ∈ a.closedList.map coordsOf ∨
          coordsOf nb.1 ∈ op2.map coordsOf) := by
  intro nbs
  induction nbs with
  | nil =>
    intro acc _ hC hE hND
    exact ⟨acc, rfl, hC, hE, hND, fun c hc => hc, fun nb hnb => absurd hnb (List.not_mem_nil nb)⟩
  | cons nb rest ih =>
    intro acc hnbs hC hE hND
    rcases processNb_spec a L s hLay cur hcur nb
        (hnbs nb (List.mem_cons_self nb rest)).1
        (hnbs nb (List.mem_cons_self nb rest)).2.1
        (hnbs nb (List.mem_cons_self nb rest)).2.2
        acc hC hE with ⟨acc2, hproc, hC2, hE2, hcoords, hcover⟩
    have hND2 : ((acc2 ++ a.closedList).map coordsOf).Nodup := by
      rcases hcoords with hcoords | hcoords
      · simpa only [List.map_append, hcoords] using hND
      · rcases hcoords with ⟨hmap, hfre1, hfre2⟩
        simp only [List.map_append, hmap]
        have hperm : (acc.map coordsOf ++ [coordsOf nb.1] ++ a.closedList.map coordsOf).Perm
            (acc.map coordsOf ++ a.closedList.map coordsOf ++ [coordsOf nb.1]) := by
          rw [List.append_assoc, List.append_assoc]
          exact List.Perm.append_left _ List.perm_append_comm
        rw [List.Perm.nodup_iff hperm]
        rw [List.nodup_append]
        refine ⟨by simpa only [List.map_append] using hND, List.nodup_singleton _, ?_⟩
        intro c hc hc2
        rw [List.mem_singleton] at hc2
        subst hc2
        rw [List.mem_append] at hc
        rcases hc with hc | hc
        · exact hfre1 hc
        · exact hfre2 hc
    have hmono2 : ∀ c ∈ acc.map coordsOf, c ∈ acc2.map coordsOf := by
      rcases hcoords with hcoords | hcoords
      · intro c hc; rw [hcoords]; exact hc
      · intro c hc; rw [hcoords.1]; exact List.mem_append_left _ hc
    rcases ih acc2 (fun nb2 hnb2 => hnbs nb2 (List.mem_cons_of_mem nb hnb2)) hC2 hE2 hND2 with
      ⟨op2, hloop, hC3, hE3, hND3, hmono3, hcover3⟩
    refine ⟨op2, ?_, hC3, hE3, hND3, ?_, ?_⟩
    · simp only [expandLoop, hproc]
      exact hloop
    · intro c hc
      exact hmono3 c (hmono2 c hc)
    · intro nb2 hnb2
      rw [List.mem_cons] at hnb2
      rcases hnb2 with hnb2 | hnb2
      · subst hnb2
        rcases hcover with hcover | hcover | hcover
        · exact Or.inl hcover
        · exact Or.inr (Or.inl hcover)
        · exact Or.inr (Or.inr (hmono3 _ hcover))
      · exact hcover3 nb2 hnb2

/-- Key evaluation succeeds for a start node or an annotated node. -/
theorem get_f_isSome (n : Node)
    (h : n.node_type = NodeType.START ∨ n.edge_to_parent ≠ OptEdge.none) :
    (get_f_or_zero_if_start n).isSome = true := by
  simp only [get_f_or_zero_if_start]
  by_cases hs : n.node_type = NodeType.START
  · rw [if_pos hs]; rfl
  · rw [if_neg hs]
    rcases hn : n.edge_to_parent with _ | e
    · rcases h with h | h
      · exact absurd h hs
      · exact absurd hn h
    · rfl

/-- The closed list never exceeds the number of grid cells. -/
theorem closed_le_numCells (L : List (List Node)) (s : Node) (a : AStar)
    (hInv : InvA L s a) : a.closedList.length ≤ numCellsL L := by
  have hnd : (a.closedList.map coordsOf).Nodup := by
    have h2 := hInv.hNodup
    rw [List.map_append] at h2
    exact h2.of_append_right
  have hsub : a.closedList.map coordsOf ⊆ allCoords L := by
    intro c hc
    rcases List.mem_map.mp hc with ⟨n, hn, he⟩
    rcases chainOK_kind L (coordsOf s) n (hInv.hClosed n hn) with ⟨hk, _⟩
    have hmem := kindAt_mem_allCoords L n.x n.y n.node_type hk
    rw [← he]
    exact hmem
  calc a.closedList.length
      = (a.closedList.map coordsOf).length := (List.length_map _ _).symm
    _ ≤ (allCoords L).length := (List.subperm_of_subset hnd hsub).length_le
    _ = numCellsL L := allCoords_length L

/-- `__do_search` never changes the layout or the start node. -/
theorem doSearch_preserves : ∀ (fuel : ℕ) (a : AStar),
    (doSearch fuel a).2.layout = a.layout ∧ (doSearch fuel a).2.node_start = a.node_start := by
  intro fuel
  induction fuel with
  | zero => intro a; exact ⟨rfl, rfl⟩
  | succ n ih =>
    intro a
    simp only [doSearch]
    split
    · exact ⟨rfl, rfl⟩
    · split
      · exact ⟨rfl, rfl⟩
      · split
        · exact ⟨rfl, rfl⟩
        · split
          · exact ⟨rfl, rfl⟩
          · exact ih _

/-- The post-pop expansion step of `__do_search`: popping a chain-valid
    non-end node from the open list into the closed list and expanding its
    neighbours succeeds and re-establishes the loop invariant. -/
theorem step_expand (L : List (List Node)) (s : Node)
    (hOK : LayoutOK L) (hRect : RectL L) (hsT : s.node_type = NodeType.START)
    (a : AStar) (hInv : InvA L s a) (cur : Node) (hmemCur : cur ∈ a.openList)
    (hEndF : cur.is_end = false) :
    ∃ op2, expandLoop { a with openList := removeFirst a.openList cur, closedList := a.closedList ++ [cur] } cur (AStar.get_neighbours { a with openList := removeFirst a.openList cur, closedList := a.closedList ++ [cur] } cur) (removeFirst a.openList cur) = some op2 ∧
      InvA L s { a with openList := op2, closedList := a.closedList ++ [cur] } := by
  have hcur : chainOK L (coordsOf s) cur := hInv.hOpen cur hmemCur
  have hopenND : (a.openList.map coordsOf).Nodup := by
    have h2 := hInv.hNodup
    rw [List.map_append] at h2
    exact h2.of_append_left
  have hpop : a.openList.Perm (cur :: removeFirst a.openList cur) :=
    removeFirst_perm a.openList cur hmemCur hopenND
  have hpermAll : (removeFirst a.openList cur ++ (a.closedList ++ [cur])).Perm
      (a.openList ++ a.closedList) := by
    have h2 : (removeFirst a.openList cur ++ (a.closedList ++ [cur])).Perm
        (cur :: (removeFirst a.openList cur ++ a.closedList)) := by
      rw [← List.append_assoc]
      exact List.perm_append_singleton _ _
    exact h2.trans (hpop.append_right a.closedList).symm
  have hpermCoords : ((removeFirst a.openList cur ++ (a.closedList ++ [cur])).map coordsOf).Perm
      ((a.openList ++ a.closedList).map coordsOf) := hpermAll.map coordsOf
  have hND1 : ((removeFirst a.openList cur ++ (a.closedList ++ [cur])).map coordsOf).Nodup := by
    rw [List.Perm.nodup_iff hpermCoords]
    exact hInv.hNodup
  have hop1C : ∀ n ∈ removeFirst a.openList cur, chainOK L (coordsOf s) n := by
    intro n hn
    exact hInv.hOpen n (removeFirst_subset a.openList cur hn)
  have hop1E : ∀ n ∈ removeFirst a.openList cur, n.edge_to_parent ≠ OptEdge.none := by
    intro n hn hne
    have hnOpen : n ∈ a.openList := removeFirst_subset a.openList cur hn
    have hcl : a.closedList = [] := hInv.hEdgeNone n hnOpen hne
    have hop : a.openList = [s] := hInv.hFirst hcl
    have hcs : cur = s := by
      rw [hop] at hmemCur
      rw [List.mem_singleton] at hmemCur
      exact hmemCur
    rw [hop, hcs] at hn
    have hrem : removeFirst [s] s = [] := by
      simp [removeFirst, List.eraseP_cons, nodeEq]
    rw [hrem] at hn
    exact absurd hn (List.not_mem_nil n)
  have hLay1 : (AStar.layout { a with openList := removeFirst a.openList cur, closedList := a.closedList ++ [cur] }) = L := hInv.hLay
  have hnbFacts : ∀ nb ∈ AStar.get_neighbours { a with openList := removeFirst a.openList cur, closedList := a.closedList ++ [cur] } cur,
      (nb : Node × Bool).1.edge_to_parent = OptEdge.none ∧
      kindAt L nb.1.x nb.1.y = some nb.1.node_type ∧
      chebAdj (coordsOf cur) (coordsOf nb.1) := by
    intro nb hnb
    exact get_neighbours_sound _ L hLay1 hOK cur nb.1 nb.2 hnb
  rcases expandLoop_spec { a with openList := removeFirst a.openList cur, closedList := a.closedList ++ [cur] } L (coordsOf s) hLay1 cur hcur (AStar.get_neighbours { a with openList := removeFirst a.openList cur, closedList := a.closedList ++ [cur] } cur) (removeFirst a.openList cur) hnbFacts hop1C hop1E hND1 with
    ⟨op2, hexp, hC3, hE3, hND3, hmono, hcover⟩
  refine ⟨op2, hexp, ?_⟩
  have hcurNoEnd : cur.node_type ≠ NodeType.END := by
    intro hc
    rw [← is_end_iff] at hc
    rw [hEndF] at hc
    exact Bool.noConfusion hc
  refine ⟨hInv.hLay, ?_, ?_, ?_, ?_, ?_, ?_, ?_, ?_⟩
  · intro n hn
    exact hC3 n hn
  · intro n hn
    rw [List.mem_append] at hn
    rcases hn with hn | hn
    · exact hInv.hClosed n hn
    · rw [List.mem_singleton] at hn
      rw [hn]
      exact hcur
  · intro n hn
    rw [List.mem_append] at hn
    rcases hn with hn | hn
    · exact hInv.hNoEnd n hn
    · rw [List.mem_singleton] at hn
      rw [hn]
      exact hcurNoEnd
  · intro c hc q hadj k hk hkno
    rw [List.mem_append] at hc
    simp only [List.map_append, List.mem_append]
    rcases hc with hc | hc
    · have h2 := hInv.hClosure c hc q hadj k hk hkno
      rw [← List.Perm.mem_iff hpermCoords] at h2
      rw [List.map_append, List.mem_append] at h2
      rcases h2 with h2 | h2
      · exact Or.inl (hmono q h2)
      · rw [List.map_append, List.mem_append] at h2
        exact Or.inr h2
    · rw [List.mem_singleton] at hc
      rw [hc] at hadj
      rcases get_neighbours_complete { a with openList := removeFirst a.openList cur, closedList := a.closedList ++ [cur] } L hLay1 hRect hOK cur q hadj k hk with
        ⟨nb, d, hnbmem, hco, hty, hed⟩
      rcases hcover (nb, d) hnbmem with hcov | hcov | hcov
      · exfalso
        rw [is_obstacle_iff] at hcov
        rw [hty] at hcov
        exact hkno hcov
      · refine Or.inr ?_
        rw [← hco]
        simpa using hcov
      · refine Or.inl ?_
        rw [← hco]
        exact hcov
  · have h2 := hInv.hStartMem
    rw [← List.Perm.mem_iff hpermCoords] at h2
    rw [List.map_append, List.mem_append] at h2
    simp only [List.map_append, List.mem_append]
    rcases h2 with h2 | h2
    · exact Or.inl (hmono _ h2)
    · rw [List.map_append, List.mem_append] at h2
      exact Or.inr h2
  · exact hND3
  · intro n hn hne
    exact absurd hne (hE3 n hn)
  · intro hc
    exact absurd hc (by simp)

/-- Master lemma on `__do_search`: under the loop invariant the search never
    exhausts its cell-count fuel bound and never raises; a `true` result
    leaves a chain-valid `End` node in `__node_end`, and a `false` result
    leaves `__node_end` untouched and certifies that no path from the start
    coordinate to any `End` cell exists. -/
theorem doSearch_master (L : List (List Node)) (s : Node)
    (hOK : LayoutOK L) (hRect : RectL L) (hsT : s.node_type = NodeType.START) :
    ∀ (fuel : ℕ) (a : AStar), InvA L s a → ∀ (r : SRes) (a2 : AStar),
      doSearch fuel a = (r, a2) →
      (numCellsL L + 1 ≤ fuel + a.closedList.length → r ≠ SRes.fuelOut) ∧
      r ≠ SRes.crash ∧
      (r = SRes.ok true →
        chainOK L (coordsOf s) a2.node_end ∧ a2.node_end.node_type = NodeType.END) ∧
      (r = SRes.ok false →
        a2.node_end = a.node_end ∧ ¬ ∃ p, PathToAnEnd L (coordsOf s) p) := by
  intro fuel
  induction fuel with
  | zero =>
    intro a hInv r a2 hds
    simp only [doSearch] at hds
    injection hds with hr ha2
    subst hr
    subst ha2
    refine ⟨?_, ?_, ?_, ?_⟩
    · intro hb
      exfalso
      have hle := closed_le_numCells L s a hInv
      omega
    · intro hc; exact SRes.noConfusion hc
    · intro hc; exact SRes.noConfusion hc
    · intro hc; exact SRes.noConfusion hc
  | succ fuel ih =>
    intro a hInv r a2 hds
    rcases heqOp : a.openList with _ | ⟨x, xs⟩
    · simp only [doSearch, heqOp] at hds
      injection hds with hr ha2
      subst hr
      subst ha2
      refine ⟨?_, ?_, ?_, ?_⟩
      · intro _ hc; exact SRes.noConfusion hc
      · intro hc; exact SRes.noConfusion hc
      · intro hc
        exact absurd hc (by decide)
      · intro _
        refine ⟨rfl, ?_⟩
        rintro ⟨p, hp⟩
        rcases hp with ⟨hhead, hchain, hcells, d, hlast, hdk⟩
        have hSmem : coordsOf s ∈ a.closedList.map coordsOf := by
          have h2 := hInv.hStartMem
          rw [heqOp] at h2
          simpa using h2
        have hclosed : closedUnderSteps L (a.closedList.map coordsOf) := by
          intro c hc o ho k hk hkno
          rcases List.mem_map.mp hc with ⟨cn, hcn, hcne⟩
          have hadj : chebAdj (coordsOf cn) (c.1 + o.1, c.2 + o.2) := by
            rw [chebAdj_iff]
            rw [hcne]
            simpa using ho
          have h2 := hInv.hClosure cn hcn (c.1 + o.1, c.2 + o.2) hadj k hk hkno
          rw [heqOp] at h2
          simpa using h2
        have hconf := path_confined L (a.closedList.map coordsOf) hclosed p hchain hcells
          (coordsOf s) hhead hSmem
        have hdmem : d ∈ a.closedList.map coordsOf :=
          hconf d (List.mem_of_mem_getLast? hlast)
        rcases List.mem_map.mp hdmem with ⟨dn, hdn, hdne⟩
        rcases chainOK_kind L (coordsOf s) dn (hInv.hClosed dn hdn) with ⟨hdk2, _⟩
        have hxy : dn.x = d.1 ∧ dn.y = d.2 := by
          rw [← hdne]
          exact ⟨rfl, rfl⟩
        rw [hxy.1, hxy.2] at hdk2
        rw [hdk2] at hdk
        have hEND : dn.node_type = NodeType.END := by
          injection hdk
        exact hInv.hNoEnd dn hdn hEND
    · have hkeys : ∀ n ∈ x :: xs, (get_f_or_zero_if_start n).isSome = true := by
        intro n hn
        rw [← heqOp] at hn
        apply get_f_isSome
        rcases hne : n.edge_to_parent with _ | e
        · have hcl : a.closedList = [] := hInv.hEdgeNone n hn hne
          have hop : a.openList = [s] := hInv.hFirst hcl
          rw [hop] at hn
          rw [List.mem_singleton] at hn
          subst hn
          exact Or.inl hsT
        · refine Or.inr ?_
          intro hc
          exact OptEdge.noConfusion hc
      rcases selectMin_mem xs x hkeys with ⟨cur0, hsel0, hmem0⟩
      have hmemCur : cur0 ∈ a.openList := by
        rw [heqOp]
        exact hmem0
      have hcur : chainOK L (coordsOf s) cur0 := hInv.hOpen cur0 hmemCur
      simp only [doSearch, heqOp, hsel0] at hds
      split at hds
      · -- the selected node is the end node
        rename_i hEnd
        injection hds with hr ha2
        subst hr
        subst ha2
        refine ⟨?_, ?_, ?_, ?_⟩
        · intro _ hc; exact SRes.noConfusion hc
        · intro hc; exact SRes.noConfusion hc
        · intro _
          exact ⟨hcur, (is_end_iff cur0).mp hEnd⟩
        · intro hc
          exact absurd hc (by decide)
      · -- expansion step
        rename_i hEndN
        have hEndF : cur0.is_end = false := by
          rcases hb : cur0.is_end with _ | _
          · rfl
          · exact absurd hb hEndN
        rcases step_expand L s hOK hRect hsT a hInv cur0 hmemCur hEndF with ⟨op2, hexp, hInv2⟩
        rw [heqOp] at hexp
        split at hds
        · rename_i hexpN
          rw [hexpN] at hexp
          exact Option.noConfusion hexp
        · rename_i op2b hexpS
          rw [hexpS] at hexp
          have hop2 : op2b = op2 := by injection hexp
          rw [hop2] at hds
          have hout := ih { a with openList := op2, closedList := a.closedList ++ [cur0] }
            hInv2 r a2 hds
          rcases hout with ⟨ihBound, ihCrash, ihTrue, ihFalse⟩
          refine ⟨?_, ihCrash, ihTrue, ?_⟩
          · intro hb
            apply ihBound
            simp only [List.length_append, List.length_singleton]
            omega
          · intro hf
            rcases ihFalse hf with ⟨hne2, hnp⟩
            exact ⟨hne2, hnp⟩

/-- The designated start node is chain-valid on its own. -/
theorem chainOK_self (L : List (List Node)) (s : Node)
    (hsT : s.node_type = NodeType.START) (hsE : s.edge_to_parent = OptEdge.none)
    (hsK : kindAt L s.x s.y = some NodeType.START) : chainOK L (coordsOf s) s := by
  rcases s with ⟨sx, sy, st, (_ | e)⟩
  · simp only [chainOK]
    simp only [Node.node_type_mk] at hsT
    simp only [Node.x_mk, Node.y_mk] at hsK
    subst hsT
    exact ⟨hsK, rfl, rfl⟩
  · exact absurd hsE (by simp)

/-- A chain-valid node of kind `End` certifies a path to an `End` cell. -/
theorem chainOK_pathToEnd (L : List (List Node)) (sc : Int × Int) (n : Node)
    (h : chainOK L sc n) (hEnd : n.node_type = NodeType.END) :
    ∃ p, PathToAnEnd L sc p := by
  rcases chainOK_path L sc n h with ⟨hhead, hlast, hchain, hcells⟩
  refine ⟨(chainTrace n).reverse, hhead, hchain, hcells, ⟨coordsOf n, hlast, ?_⟩⟩
  rcases chainOK_kind L sc n h with ⟨hk, _⟩
  rw [← hEnd]
  exact hk

/-- The reset phase of `search` establishes the loop invariant. -/
theorem InvA_reset (L : List (List Node)) (s : Node) (a : AStar)
    (hLay : a.layout = L) (hS : a.node_start = s)
    (hsT : s.node_type = NodeType.START) (hsE : s.edge_to_parent = OptEdge.none)
    (hsK : kindAt L s.x s.y = some NodeType.START) :
    InvA L s (resetPhase a) := by
  have hchain : chainOK L (coordsOf s) s := chainOK_self L s hsT hsE hsK
  refine ⟨hLay, ?_, ?_, ?_, ?_, ?_, ?_, ?_, ?_⟩
  · intro n hn
    simp only [resetPhase, hS] at hn
    rw [List.mem_singleton] at hn
    subst hn
    exact hchain
  · intro n hn
    exact absurd hn (List.not_mem_nil n)
  · intro n hn
    exact absurd hn (List.not_mem_nil n)
  · intro c hc
    exact absurd hc (List.not_mem_nil c)
  · simp [resetPhase, hS]
  · simp [resetPhase]
  · intro n _ _
    rfl
  · intro _
    simp only [resetPhase, hS]

/-- Facts established by a successful construction. -/
theorem init_ok_facts (arr2d : List (List ℕ)) (a : AStar)
    (h : AStar.init arr2d = Except.ok a) :
    a.layout = buildLayout arr2d ∧ a.openList = [] ∧ a.closedList = [] ∧
    a.node_start.node_type = NodeType.START ∧
    a.node_start.edge_to_parent = OptEdge.none ∧
    kindAt (buildLayout arr2d) a.node_start.x a.node_start.y = some NodeType.START ∧
    a.node_end.node_type = NodeType.END ∧
    a.node_end.edge_to_parent = OptEdge.none ∧
    kindAt (buildLayout arr2d) a.node_end.x a.node_end.y = some NodeType.END := by
  simp only [AStar.init] at h
  rcases hs : scanLast (buildLayout arr2d) Node.is_start with _ | sn
  · rw [hs] at h
    exact Except.noConfusion h
  · rw [hs] at h
    rcases he : scanLast (buildLayout arr2d) Node.is_end with _ | en
    · rw [he] at h
      exact Except.noConfusion h
    · rw [he] at h
      injection h with h2
      subst h2
      rcases scanLast_some _ _ _ hs with ⟨⟨rowS, hrowS, hsnMem⟩, hsnP⟩
      rcases scanLast_some _ _ _ he with ⟨⟨rowE, hrowE, henMem⟩, henP⟩
      have hOK := layoutOK_buildLayout arr2d
      rcases hOK.2 rowS hrowS sn hsnMem with ⟨hsnK, hsnE⟩
      rcases hOK.2 rowE hrowE en henMem with ⟨henK, henE⟩
      have hsT : sn.node_type = NodeType.START := (is_start_iff sn).mp hsnP
      have heT : en.node_type = NodeType.END := (is_end_iff en).mp henP
      refine ⟨rfl, rfl, rfl, hsT, hsnE, ?_, heT, henE, ?_⟩
      · rw [← hsT]
        exact hsnK
      · rw [← heT]
        exact henK

/-- Full characterization of one `search()` call on an instance whose layout
    and start node come from a successful construction: the call returns a
    boolean, returning `true` exactly when a path from the start cell to an
    `End` cell exists; on success `__node_end` holds a chain-valid `End`
    node, on failure `__node_end` is untouched; the layout and start node
    are preserved. -/
theorem search_spec (L : List (List Node)) (s : Node)
    (hOK : LayoutOK L) (hRect : RectL L)
    (hsT : s.node_type = NodeType.START) (hsE : s.edge_to_parent = OptEdge.none)
    (hsK : kindAt L s.x s.y = some NodeType.START)
    (a : AStar) (hLay : a.layout = L) (hS : a.node_start = s) :
    ((a.search).1 = SRes.ok true ∨ (a.search).1 = SRes.ok false) ∧
    ((a.search).1 = SRes.ok true ↔ ∃ p, PathToAnEnd L (coordsOf s) p) ∧
    ((a.search).1 = SRes.ok true →
      chainOK L (coordsOf s) (a.search).2.node_end ∧
      (a.search).2.node_end.node_type = NodeType.END) ∧
    ((a.search).1 = SRes.ok false → (a.search).2.node_end = a.node_end) ∧
    (a.search).2.layout = L ∧ (a.search).2.node_start = s := by
  have hInv0 : InvA L s (resetPhase a) := InvA_reset L s a hLay hS hsT hsE hsK
  rcases hds : doSearch ((resetPhase a).numCells + 1) (resetPhase a) with ⟨r, a2⟩
  have hsearch : a.search = (r, a2) := by
    simp only [AStar.search]
    exact hds
  rcases doSearch_master L s hOK hRect hsT _ _ hInv0 r a2 hds with ⟨hB, hC, hT, hF⟩
  have hNumC : (resetPhase a).numCells = numCellsL L := by
    simp only [AStar.numCells, resetPhase, numCellsL, hLay]
  have hNoFuel : r ≠ SRes.fuelOut := by
    apply hB
    rw [hNumC]
    simp only [resetPhase, List.length_nil]
    omega
  have hpres := doSearch_preserves ((resetPhase a).numCells + 1) (resetPhase a)
  rw [hds] at hpres
  have hdich : r = SRes.ok true ∨ r = SRes.ok false := by
    rcases r with b | _ | _
    · rcases b with _ | _
      · exact Or.inr rfl
      · exact Or.inl rfl
    · exact absurd rfl hC
    · exact absurd rfl hNoFuel
  rw [hsearch]
  refine ⟨hdich, ?_, ?_, ?_, ?_, ?_⟩
  · constructor
    · intro htrue
      rcases hT htrue with ⟨hch, hty⟩
      exact chainOK_pathToEnd L (coordsOf s) a2.node_end hch hty
    · intro hpath
      rcases hdich with hd | hd
      · exact hd
      · exfalso
        rcases hF hd with ⟨_, hnp⟩
        exact hnp hpath
  · intro htrue
    exact hT htrue
  · intro hfalse
    rcases hF hfalse with ⟨hne, _⟩
    exact hne
  · rw [hpres.1]
    simp only [resetPhase]
    exact hLay
  · rw [hpres.2]
    simp only [resetPhase]
    exact hS

/-- The backward walk is empty or starts at its argument's coordinates. -/
theorem backtrack_head (n : Node) :
    backtrack n = [] ∨ (backtrack n).head? = some (coordsOf n) := by
  rcases n with ⟨x, y, t, (_ | ⟨⟨tgt, g, h, d⟩⟩)⟩
  · exact Or.inl rfl
  · by_cases ht : t = NodeType.START
    · refine Or.inl ?_
      simp [backtrack, ht]
    · refine Or.inr ?_
      simp [backtrack, ht]

/-- Consecutive coordinates on the backward walk of a valid chain are
    grid-adjacent. -/
theorem backtrack_chain (L : List (List Node)) (sc : Int × Int) :
    (n : Node) → chainOK L sc n → List.Chain' chebAdj (backtrack n)
  | Node.mk x y t OptEdge.none, _ => by simp [backtrack]
  | Node.mk x y t (OptEdge.some (Edge.mk tgt g h d)), hc => by
    simp only [chainOK] at hc
    have ih := backtrack_chain L sc tgt hc.2.2.2
    by_cases ht : t = NodeType.START
    · simp [backtrack, ht]
    · simp only [backtrack, if_neg ht]
      rw [List.chain'_cons']
      refine ⟨?_, ih⟩
      intro b hb
      rcases backtrack_head tgt with hbt | hbt
      · rw [hbt] at hb
        exact absurd hb (by simp)
      · rw [hbt] at hb
        simp only [Option.mem_def, Option.some.injEq] at hb
        subst hb
        have h2 := hc.2.2.1
        rw [chebAdj_symm] at h2
        exact h2

/-- A chain whose backward walk is empty sits on a `Start` cell. -/
theorem backtrack_nil_start (L : List (List Node)) (sc : Int × Int) (tgt : Node)
    (hc : chainOK L sc tgt) (hb : backtrack tgt = []) :
    kindAt L tgt.x tgt.y = some NodeType.START := by
  rcases tgt with ⟨tx, ty, tt, (_ | ⟨⟨tgt2, g, h, d⟩⟩)⟩
  · simp only [chainOK] at hc
    rw [← hc.2.1]
    exact hc.1
  · simp only [chainOK] at hc
    simp only [backtrack] at hb
    by_cases ht : tt = NodeType.START
    · rw [← ht]
      exact hc.1
    · rw [if_neg ht] at hb
      exact absurd hb (by simp)

/-- The last coordinate of the backward walk of a valid chain is adjacent to
    a `Start` cell. -/
theorem backtrack_getLast_adj_start (L : List (List Node)) (sc : Int × Int) :
    (n : Node) → chainOK L sc n → ∀ c, (backtrack n).getLast? = some c →
      ∃ pc : Int × Int, chebAdj c pc ∧ kindAt L pc.1 pc.2 = some NodeType.START
  | Node.mk x y t OptEdge.none, _ => by
    intro c hcl
    simp [backtrack] at hcl
  | Node.mk x y t (OptEdge.some (Edge.mk tgt g h d)), hc => by
    intro c hcl
    simp only [chainOK] at hc
    by_cases ht : t = NodeType.START
    · simp [backtrack, ht] at hcl
    · simp only [backtrack, if_neg ht] at hcl
      rcases hbt : backtrack tgt with _ | ⟨b, bs⟩
      · rw [hbt] at hcl
        simp only [List.getLast?_singleton, Option.some.injEq] at hcl
        subst hcl
        refine ⟨(tgt.x, tgt.y), ?_, ?_⟩
        · have h2 := hc.2.2.1
          rw [chebAdj_symm] at h2
          exact h2
        · exact backtrack_nil_start L sc tgt hc.2.2.2 hbt
      · rw [hbt] at hcl
        have hcl2 : (backtrack tgt).getLast? = some c := by
          rw [hbt]
          exact hcl
        exact backtrack_getLast_adj_start L sc tgt hc.2.2.2 c hcl2

/-- Unfolding of `get_result` when the end node carries an annotation. -/
theorem get_result_eq (a2 : AStar) (e : Edge)
    (he : a2.node_end.edge_to_parent = OptEdge.some e) :
    a2.get_result = some (backtrack e.target).reverse := by
  simp only [AStar.get_result, he]

/-- `get_result` raises exactly when the end node has no annotation. -/
theorem get_result_none_iff (a2 : AStar) :
    a2.get_result = none ↔ a2.node_end.edge_to_parent = OptEdge.none := by
  simp only [AStar.get_result]
  rcases he : a2.node_end.edge_to_parent with _ | e
  · simp
  · simp

/-- The first chain link behind an annotated node. -/
theorem chainOK_edge_target (L : List (List Node)) (sc : Int × Int) (n : Node) (e : Edge)
    (hc : chainOK L sc n) (he : n.edge_to_parent = OptEdge.some e) :
    chainOK L sc e.target ∧ chebAdj (coordsOf e.target) (coordsOf n) := by
  rcases n with ⟨x, y, t, (_ | ⟨⟨tgt, g, h, d⟩⟩)⟩
  · exact absurd he (by simp)
  · simp only [Node.edge_to_parent_mk, OptEdge.some.injEq] at he
    subst he
    simp only [chainOK] at hc
    exact ⟨hc.2.2.2, hc.2.2.1⟩

/-- Absence of a cell kind in the built layout corresponds to absence of a
    decoding input code. -/
theorem buildLayout_no_kind_iff (arr2d : List (List ℕ)) (t : NodeType) :
    (∀ row ∈ buildLayout arr2d, ∀ n ∈ row, n.node_type ≠ t) ↔
    (∀ row ∈ arr2d, ∀ v ∈ row, NodeType.from_value v ≠ t) := by
  constructor
  · intro h row hrow v hv
    rcases List.mem_iff_getElem?.mp hrow with ⟨x, hx⟩
    rcases List.mem_iff_getElem?.mp hv with ⟨y, hy⟩
    have hrow2 : (buildLayout arr2d)[x]? = some (row.enum.map (fun py =>
        Node.mk (Int.ofNat x) (Int.ofNat py.1) (NodeType.from_value py.2) OptEdge.none)) := by
      rw [buildLayout_getElem, hx]
      rfl
    have hrowMem : (row.enum.map (fun py =>
        Node.mk (Int.ofNat x) (Int.ofNat py.1) (NodeType.from_value py.2) OptEdge.none)) ∈
        buildLayout arr2d := by
      rw [List.mem_iff_getElem?]
      exact ⟨x, hrow2⟩
    have hnMem : Node.mk (Int.ofNat x) (Int.ofNat y) (NodeType.from_value v) OptEdge.none ∈
        (row.enum.map (fun py =>
          Node.mk (Int.ofNat x) (Int.ofNat py.1) (NodeType.from_value py.2) OptEdge.none)) := by
      rw [List.mem_map]
      exact ⟨(y, v), List.mem_enum_iff_getElem?.mpr hy, rfl⟩
    have h2 := h _ hrowMem _ hnMem
    simpa using h2
  · intro h row hrow n hn
    simp only [buildLayout, List.mem_map] at hrow
    rcases hrow with ⟨px, hpx, hpe⟩
    rw [← hpe] at hn
    simp only [List.mem_map] at hn
    rcases hn with ⟨py, hpy, hne⟩
    rw [← hne]
    simp only [Node.node_type_mk]
    exact h px.2 (List.snd_mem_of_mem_enum hpx) py.2 (List.snd_mem_of_mem_enum hpy)

/-- C8: decoding maps the codes 0, 1, 2, 3 to `Blank`, `Start`, `End`,
    `Obstacle` respectively, and every code strictly greater than 3 (the
    maximum known kind value) to `Obstacle`. -/
theorem c8_from_value_clamps (v : ℕ) (h : 3 < v) :
    NodeType.maxValue = 3 ∧
    NodeType.from_value 0 = NodeType.BLANK ∧
    NodeType.from_value 1 = NodeType.START ∧
    NodeType.from_value 2 = NodeType.END ∧
    NodeType.from_value 3 = NodeType.OBSTACLE ∧
    NodeType.from_value v = NodeType.OBSTACLE := by
  have hm : NodeType.maxValue = 3 := by decide
  refine ⟨hm, by decide, by decide, by decide, by decide, ?_⟩
  simp only [NodeType.from_value, hm]
  rw [if_pos h]
  rfl

/-- Witness for C8 at the concrete code 4. -/
theorem c8_witness :
    NodeType.maxValue = 3 ∧
    NodeType.from_value 0 = NodeType.BLANK ∧
    NodeType.from_value 1 = NodeType.START ∧
    NodeType.from_value 2 = NodeType.END ∧
    NodeType.from_value 3 = NodeType.OBSTACLE ∧
    NodeType.from_value 4 = NodeType.OBSTACLE :=
  c8_from_value_clamps 4 (by decide)

/-- C5: for a nonempty rectangular code array, construction raises the
    invalid-layout error exactly when no cell decodes to kind `Start` or no
    cell decodes to kind `End`; with at least one of each, construction
    succeeds. -/
theorem c5_invalid_layout_iff (arr2d : List (List ℕ))
    (h1 : arr2d ≠ []) (h2 : Rect arr2d) :
    (∃ err, AStar.init arr2d = Except.error err) ↔
      ((∀ row ∈ arr2d, ∀ v ∈ row, NodeType.from_value v ≠ NodeType.START) ∨
       (∀ row ∈ arr2d, ∀ v ∈ row, NodeType.from_value v ≠ NodeType.END)) := by
  constructor
  · rintro ⟨err, herr⟩
    simp only [AStar.init] at herr
    rcases hs : scanLast (buildLayout arr2d) Node.is_start with _ | sn
    · left
      rw [← buildLayout_no_kind_iff]
      intro row hrow n hn
      have hfalse := (scanLast_none_iff _ _).mp hs row hrow n hn
      intro hc
      rw [← is_start_iff] at hc
      rw [hfalse] at hc
      exact Bool.noConfusion hc
    · rw [hs] at herr
      rcases he : scanLast (buildLayout arr2d) Node.is_end with _ | en
      · right
        rw [← buildLayout_no_kind_iff]
        intro row hrow n hn
        have hfalse := (scanLast_none_iff _ _).mp he row hrow n hn
        intro hc
        rw [← is_end_iff] at hc
        rw [hfalse] at hc
        exact Bool.noConfusion hc
      · rw [he] at herr
        exact Except.noConfusion herr
  · intro hor
    rcases hor with hno | hno
    · have hs : scanLast (buildLayout arr2d) Node.is_start = none := by
        rw [scanLast_none_iff]
        intro row hrow n hn
        rw [Bool.eq_false_iff]
        intro hc
        exact (buildLayout_no_kind_iff arr2d NodeType.START).mpr hno row hrow n hn
          ((is_start_iff n).mp hc)
      exact ⟨InitError.noStartFound, by simp only [AStar.init, hs]⟩
    · rcases hs : scanLast (buildLayout arr2d) Node.is_start with _ | sn
      · exact ⟨InitError.noStartFound, by simp only [AStar.init, hs]⟩
      · have he : scanLast (buildLayout arr2d) Node.is_end = none := by
          rw [scanLast_none_iff]
          intro row hrow n hn
          rw [Bool.eq_false_iff]
          intro hc
          exact (buildLayout_no_kind_iff arr2d NodeType.END).mpr hno row hrow n hn
            ((is_end_iff n).mp hc)
        exact ⟨InitError.noEndFound, by simp only [AStar.init, hs, he]⟩

/-- Witness for C5 on the concrete grid `[[1, 2]]`, which has a start and an
    end cell: construction does not raise. -/
theorem c5_witness : ¬ ∃ err, AStar.init [[1, 2]] = Except.error err := by
  rw [c5_invalid_layout_iff [[1, 2]] (by decide) (by decide)]
  decide

/-- C2: on every accepted rectangular grid, after `search()` returned `true`,
    every pair of consecutive coordinates in the sequence returned by
    `get_result()` is at Chebyshev distance exactly 1 (grid-adjacent,
    orthogonally or diagonally). -/
theorem c2_consecutive_adjacent (arr2d : List (List ℕ)) (a : AStar)
    (res : List (Int × Int))
    (h1 : arr2d ≠ []) (h2 : Rect arr2d) (hI : AStar.init arr2d = Except.ok a)
    (hT : (a.search).1 = SRes.ok true)
    (hr : (a.search).2.get_result = some res) :
    List.Chain' chebAdj res := by
  rcases init_ok_facts arr2d a hI with ⟨hLay, _, _, hsT, hsE, hsK, _, _, _⟩
  have hspec := search_spec (buildLayout arr2d) a.node_start (layoutOK_buildLayout arr2d)
    (rectL_buildLayout arr2d h2) hsT hsE hsK a hLay rfl
  rcases hspec.2.2.1 hT with ⟨hch, hty⟩
  have hns : (a.search).2.node_end.node_type ≠ NodeType.START := by
    rw [hty]
    intro hc
    exact NodeType.noConfusion hc
  rcases chainOK_edge_of_not_start _ _ _ hch hns with ⟨e, he⟩
  rw [get_result_eq _ e he] at hr
  injection hr with hres
  rw [← hres]
  rcases chainOK_edge_target _ _ _ e hch he with ⟨hct, _⟩
  rw [List.chain'_reverse]
  exact List.Chain'.imp (fun p q hpq => (chebAdj_symm p q).mp hpq)
    (backtrack_chain _ _ e.target hct)

/-- Witness for C2 on the docstring example grid. -/
theorem c2_witness : List.Chain' chebAdj [((1 : Int), (2 : Int)), (0, 3), (1, 4)] :=
  c2_consecutive_adjacent exGrid (getA exGrid) [(1, 2), (0, 3), (1, 4)]
    (by decide) (by decide) rfl (by decide) (by decide)

/-- C1 counterexample: the grid `[[1, 2, 3, 2]]` is accepted by the
    constructor (start `(0, 0)`, designated end `(0, 3)`, the last `End` in
    row-major order); `search()` returns `true` although no obstacle-free
    8-adjacent sequence from the start cell to the end cell exists — the
    search stopped at the other `End`-kind cell `(0, 1)`. -/
theorem c1_counterexample :
    AStar.init [[1, 2, 3, 2]] = Except.ok (getA [[1, 2, 3, 2]]) ∧
    coordsOf (getA [[1, 2, 3, 2]]).node_start = (0, 0) ∧
    coordsOf (getA [[1, 2, 3, 2]]).node_end = (0, 3) ∧
    ((getA [[1, 2, 3, 2]]).search).1 = SRes.ok true ∧
    ¬ ∃ p, PathTo (getA [[1, 2, 3, 2]]).layout (0, 0) (0, 3) p := by
  refine ⟨rfl, by decide, by decide, by decide, ?_⟩
  rintro ⟨p, hhead, hlast, hchain, hcells⟩
  have hcl : closedUnderSteps (getA [[1, 2, 3, 2]]).layout [(0, 0), (0, 1)] := by decide
  have hconf := path_confined (getA [[1, 2, 3, 2]]).layout [(0, 0), (0, 1)] hcl p
    hchain hcells (0, 0) hhead (by decide)
  have hmem := hconf (0, 3) (List.mem_of_mem_getLast? hlast)
  simp at hmem

/-- C1 as amended: for every accepted nonempty rectangular grid, `search()`
    returns `true` exactly when there is a sequence of cells from the start
    cell to SOME cell of kind `End` in which consecutive cells are 8-adjacent
    and no cell is an obstacle (when several `End` cells exist, reaching any
    of them counts); it returns `false` exactly when no such sequence
    exists. -/
theorem c1_amended (arr2d : List (List ℕ)) (a : AStar)
    (h1 : arr2d ≠ []) (h2 : Rect arr2d) (hI : AStar.init arr2d = Except.ok a) :
    ((a.search).1 = SRes.ok true ↔
      ∃ p, PathToAnEnd a.layout (coordsOf a.node_start) p) ∧
    ((a.search).1 = SRes.ok false ↔
      ¬ ∃ p, PathToAnEnd a.layout (coordsOf a.node_start) p) := by
  rcases init_ok_facts arr2d a hI with ⟨hLay, _, _, hsT, hsE, hsK, _, _, _⟩
  have hspec := search_spec (buildLayout arr2d) a.node_start (layoutOK_buildLayout arr2d)
    (rectL_buildLayout arr2d h2) hsT hsE hsK a hLay rfl
  rcases hspec with ⟨hdich, hiff, _, _, _⟩
  rw [hLay]
  refine ⟨hiff, ?_⟩
  constructor
  · intro hfalse hpath
    have htrue := hiff.mpr hpath
    rw [hfalse] at htrue
    have : False := by
      injection htrue with hb
      exact Bool.noConfusion hb
    exact this
  · intro hnp
    rcases hdich with hd | hd
    · exact absurd (hiff.mp hd) hnp
    · exact hd

/-- Witness for C1 (amended) on the docstring example grid, whose search
    succeeds. -/
theorem c1_witness :
    (((getA exGrid).search).1 = SRes.ok true ↔
      ∃ p, PathToAnEnd (getA exGrid).layout (coordsOf (getA exGrid).node_start) p) ∧
    (((getA exGrid).search).1 = SRes.ok false ↔
      ¬ ∃ p, PathToAnEnd (getA exGrid).layout (coordsOf (getA exGrid).node_start) p) :=
  c1_amended exGrid (getA exGrid) (by decide) (by decide) rfl

/-- C3 counterexample: on the docstring example grid (accepted, end cell at
    `(2, 5)`, reachable), `search()` returns `true` but the last element of
    the sequence returned by `get_result()` is not the end cell's
    coordinates — the walk of `get_result` starts at the end's predecessor,
    so the end cell itself is never included. -/
theorem c3_counterexample :
    AStar.init exGrid = Except.ok (getA exGrid) ∧
    coordsOf (getA exGrid).node_end = (2, 5) ∧
    ((getA exGrid).search).1 = SRes.ok true ∧
    ((getA exGrid).search).2.get_result = some [(1, 2), (0, 3), (1, 4)] ∧
    ([((1 : Int), (2 : Int)), (0, 3), (1, 4)].getLast? ≠ some ((2 : Int), (5 : Int))) := by
  refine ⟨rfl, by decide, by decide, by decide, by decide⟩

/-- C3 as amended: on every accepted nonempty rectangular grid with exactly
    one `Start` cell and exactly one `End` cell, after `search()` returns
    `true`, the sequence returned by `get_result()` — when nonempty — has a
    first element 8-adjacent (including diagonally) to the start cell, and a
    last element 8-adjacent to the end cell (the end's predecessor on the
    path; the end cell's own coordinates are not part of the sequence). -/
theorem c3_amended (arr2d : List (List ℕ)) (a : AStar) (res : List (Int × Int))
    (h1 : arr2d ≠ []) (h2 : Rect arr2d) (hI : AStar.init arr2d = Except.ok a)
    (hUS : ∀ c ∈ allCoords a.layout,
      kindAt a.layout c.1 c.2 = some NodeType.START → c = coordsOf a.node_start)
    (hUE : ∀ c ∈ allCoords a.layout,
      kindAt a.layout c.1 c.2 = some NodeType.END → c = coordsOf a.node_end)
    (hT : (a.search).1 = SRes.ok true)
    (hr : (a.search).2.get_result = some res) :
    (∀ f, res.head? = some f → chebAdj (coordsOf a.node_start) f) ∧
    (∀ l, res.getLast? = some l → chebAdj l (coordsOf a.node_end)) := by
  rcases init_ok_facts arr2d a hI with ⟨hLay, _, _, hsT, hsE, hsK, _, _, _⟩
  have hspec := search_spec (buildLayout arr2d) a.node_start (layoutOK_buildLayout arr2d)
    (rectL_buildLayout arr2d h2) hsT hsE hsK a hLay rfl
  rcases hspec.2.2.1 hT with ⟨hch, hty⟩
  have hns : (a.search).2.node_end.node_type ≠ NodeType.START := by
    rw [hty]
    intro hc
    exact NodeType.noConfusion hc
  rcases chainOK_edge_of_not_start _ _ _ hch hns with ⟨e, he⟩
  rw [get_result_eq _ e he] at hr
  injection hr with hres
  rcases chainOK_edge_target _ _ _ e hch he with ⟨hct, hadj⟩
  have hEndCo : coordsOf (a.search).2.node_end = coordsOf a.node_end := by
    rcases chainOK_kind _ _ _ hch with ⟨hk, _⟩
    rw [hty] at hk
    apply hUE (coordsOf (a.search).2.node_end) ?_ ?_
    · rw [hLay]
      exact kindAt_mem_allCoords _ _ _ _ hk
    · rw [hLay]
      exact hk
  constructor
  · intro f hf
    rw [← hres] at hf
    rw [List.head?_reverse] at hf
    rcases backtrack_getLast_adj_start (buildLayout arr2d) (coordsOf a.node_start)
      e.target hct f hf with ⟨pc, hpcadj, hpck⟩
    have hpcs : pc = coordsOf a.node_start := by
      apply hUS pc ?_ ?_
      · rw [hLay]
        exact kindAt_mem_allCoords _ _ _ _ hpck
      · rw [hLay]
        exact hpck
    rw [← hpcs]
    rw [chebAdj_symm]
    exact hpcadj
  · intro l hl
    rw [← hres] at hl
    rw [List.getLast?_reverse] at hl
    rcases backtrack_head e.target with hbt | hbt
    · rw [hbt] at hl
      exact absurd hl (by simp)
    · rw [hbt] at hl
      injection hl with hl2
      rw [← hl2, ← hEndCo]
      exact hadj

/-- Witness for C3 (amended) on the docstring example grid. -/
theorem c3_witness :
    (∀ f, [((1 : Int), (2 : Int)), (0, 3), (1, 4)].head? = some f →
      chebAdj (coordsOf (getA exGrid).node_start) f) ∧
    (∀ l, [((1 : Int), (2 : Int)), (0, 3), (1, 4)].getLast? = some l →
      chebAdj l (coordsOf (getA exGrid).node_end)) :=
  c3_amended exGrid (getA exGrid) [(1, 2), (0, 3), (1, 4)]
    (by decide) (by decide) rfl (by decide) (by decide) (by decide) (by decide)

/-- Layout and start node are preserved across repeated `search()` calls. -/
theorem searchN_preserves (arr2d : List (List ℕ)) (a : AStar)
    (h2 : Rect arr2d) (hI : AStar.init arr2d = Except.ok a) :
    ∀ n, (searchN a n).layout = buildLayout arr2d ∧
      (searchN a n).node_start = a.node_start := by
  rcases init_ok_facts arr2d a hI with ⟨hLay, _, _, hsT, hsE, hsK, _, _, _⟩
  intro n
  induction n with
  | zero => exact ⟨hLay, rfl⟩
  | succ n ih =>
    have hspec := search_spec (buildLayout arr2d) a.node_start (layoutOK_buildLayout arr2d)
      (rectL_buildLayout arr2d h2) hsT hsE hsK (searchN a n) ih.1 ih.2
    exact ⟨hspec.2.2.2.2.1, hspec.2.2.2.2.2⟩

/-- C4: on every accepted nonempty rectangular grid, after `n` calls to
    `search()` on the instance, `get_result()` raises the path-not-found
    error exactly when no prior `search()` call returned `true` (in
    particular when `search` was never run, or when every run returned
    `false` because no `End` cell is reachable); otherwise it returns a path
    without error. -/
theorem c4_get_result_raises_iff (arr2d : List (List ℕ)) (a : AStar)
    (h1 : arr2d ≠ []) (h2 : Rect arr2d) (hI : AStar.init arr2d = Except.ok a)
    (n : ℕ) :
    (searchN a n).get_result = none ↔
      ∀ k, k < n → ((searchN a k).search).1 ≠ SRes.ok true := by
  rcases init_ok_facts arr2d a hI with ⟨hLay, _, _, hsT, hsE, hsK, _, hEE, _⟩
  induction n with
  | zero =>
    constructor
    · intro _ k hk
      exact absurd hk (Nat.not_lt_zero k)
    · intro _
      rw [get_result_none_iff]
      exact hEE
  | succ n ih =>
    have hpres := searchN_preserves arr2d a h2 hI n
    have hspec := search_spec (buildLayout arr2d) a.node_start (layoutOK_buildLayout arr2d)
      (rectL_buildLayout arr2d h2) hsT hsE hsK (searchN a n) hpres.1 hpres.2
    rcases hspec with ⟨hdich, _, hT, hF, _, _⟩
    rw [Nat.forall_lt_succ_right]
    rcases hdich with hd | hd
    · rcases hT hd with ⟨hch, hty⟩
      have hns : ((searchN a n).search).2.node_end.node_type ≠ NodeType.START := by
        rw [hty]
        intro hc
        exact NodeType.noConfusion hc
      rcases chainOK_edge_of_not_start _ _ _ hch hns with ⟨e, he⟩
      constructor
      · intro hnone
        exfalso
        rw [get_result_none_iff] at hnone
        simp only [searchN] at hnone
        rw [he] at hnone
        exact OptEdge.noConfusion hnone
      · intro hall
        exact absurd hd hall.2
    · have hne := hF hd
      constructor
      · intro hnone
        refine ⟨?_, ?_⟩
        · apply ih.mp
          rw [get_result_none_iff] at hnone ⊢
          simp only [searchN] at hnone
          rw [hne] at hnone
          exact hnone
        · rw [hd]
          intro hc
          injection hc with hb
          exact Bool.noConfusion hb
      · intro hall
        rw [get_result_none_iff]
        simp only [searchN]
        rw [hne]
        rw [← get_result_none_iff]
        exact ih.mpr hall.1

/-- Witness for C4: on the docstring example grid, after one successful
    `search()`, `get_result()` does not raise. -/
theorem c4_witness : ¬ (searchN (getA exGrid) 1).get_result = none := by
  intro hnone
  have hall := (c4_get_result_raises_iff exGrid (getA exGrid)
    (by decide) (by decide) rfl 1).mp hnone
  exact hall 0 (by decide) (by decide)

/-- C6: on the docstring example grid (start `(2, 1)`, end `(2, 5)`,
    obstacles `(1, 3)`, `(2, 3)`, `(3, 3)`), `search()` returns `true` and
    the sequence returned by `get_result()` contains none of the obstacle
    coordinates. -/
theorem c6_example_grid :
    ((getA exGrid).search).1 = SRes.ok true ∧
    ((getA exGrid).search).2.get_result = some [(1, 2), (0, 3), (1, 4)] ∧
    ∀ c ∈ (((getA exGrid).search).2.get_result).getD [],
      c ∉ ([((1 : Int), (3 : Int)), (2, 3), (3, 3)] : List (Int × Int)) := by
  refine ⟨by decide, by decide, by decide⟩

/-- C7: on every accepted nonempty rectangular grid, `search()` terminates:
    the recursion of `__do_search` returns within a number of calls bounded
    by the number of grid cells plus one (each call moves one cell from the
    open to the closed list, closed cells never re-enter the open list, and
    distinct closed cells are bounded by the cell count), so any fuel of at
    least `numCells + 1` — in particular the one `search()` uses — is never
    exhausted. -/
theorem c7_search_terminates (arr2d : List (List ℕ)) (a : AStar)
    (h1 : arr2d ≠ []) (h2 : Rect arr2d) (hI : AStar.init arr2d = Except.ok a) :
    (a.search).1 ≠ SRes.fuelOut ∧
    ∀ fuel, numCellsL a.layout + 1 ≤ fuel →
      (doSearch fuel (resetPhase a)).1 ≠ SRes.fuelOut := by
  rcases init_ok_facts arr2d a hI with ⟨hLay, _, _, hsT, hsE, hsK, _, _, _⟩
  have hspec := search_spec (buildLayout arr2d) a.node_start (layoutOK_buildLayout arr2d)
    (rectL_buildLayout arr2d h2) hsT hsE hsK a hLay rfl
  constructor
  · rcases hspec.1 with hd | hd <;> (rw [hd]; intro hc; exact SRes.noConfusion hc)
  · intro fuel hfuel
    have hInv0 := InvA_reset (buildLayout arr2d) a.node_start a hLay rfl hsT hsE hsK
    rcases hds : doSearch fuel (resetPhase a) with ⟨r, a2⟩
    have hm := doSearch_master (buildLayout arr2d) a.node_start (layoutOK_buildLayout arr2d)
      (rectL_buildLayout arr2d h2) hsT fuel (resetPhase a) hInv0 r a2 hds
    have hr : r ≠ SRes.fuelOut := by
      apply hm.1
      simp only [resetPhase, List.length_nil]
      rw [hLay] at hfuel
      omega
    exact hr

/-- Witness for C7 on the docstring example grid (35 cells, fuel 36). -/
theorem c7_witness :
    ((getA exGrid).search).1 ≠ SRes.fuelOut ∧
    (doSearch 36 (resetPhase (getA exGrid))).1 ≠ SRes.fuelOut := by
  have h := c7_search_terminates exGrid (getA exGrid) (by decide) (by decide) rfl
  exact ⟨h.1, h.2 36 (by decide)⟩

/-- C10: on every accepted nonempty rectangular grid, `search()` never ends
    in an uncaught exception: every node selected from the frontier is the
    start node or carries an annotation, so the `Exception('No edge found.')`
    branch of `__calc_g`, the `edge_to_parent.get_f()` dereference of
    `__get_f_or_zero_if_start`, and the dereference in the open-list
    replacement are unreachable (`SRes.crash` embeds all of them). -/
theorem c10_no_crash (arr2d : List (List ℕ)) (a : AStar)
    (h1 : arr2d ≠ []) (h2 : Rect arr2d) (hI : AStar.init arr2d = Except.ok a) :
    (a.search).1 ≠ SRes.crash := by
  rcases init_ok_facts arr2d a hI with ⟨hLay, _, _, hsT, hsE, hsK, _, _, _⟩
  have hspec := search_spec (buildLayout arr2d) a.node_start (layoutOK_buildLayout arr2d)
    (rectL_buildLayout arr2d h2) hsT hsE hsK a hLay rfl
  rcases hspec.1 with hd | hd <;> (rw [hd]; intro hc; exact SRes.noConfusion hc)

/-- Witness for C10 on the docstring example grid. -/
theorem c10_witness : ((getA exGrid).search).1 ≠ SRes.crash :=
  c10_no_crash exGrid (getA exGrid) (by decide) (by decide) rfl

/-- C9, divergence at the failing input: on the docstring example grid, after
    a first successful `search()`, the reset phase of the next `search()`
    call does clear the frontier (to the singleton start) and the visited
    set, but the end cell still carries its annotation from the previous run:
    the line `self.__node_end.set_edge_to_parent(None)` calls a
    `dataclasses.replace`-based method on a frozen dataclass and discards the
    returned node, so the annotation is never cleared. -/
theorem c9_stale_end_annotation :
    ((getA exGrid).search).1 = SRes.ok true ∧
    (resetPhase ((getA exGrid).search).2).openList =
      [((getA exGrid).search).2.node_start] ∧
    (resetPhase ((getA exGrid).search).2).closedList = [] ∧
    (resetPhase ((getA exGrid).search).2).node_end.has_edge_to_parent = true := by
  refine ⟨by decide, rfl, rfl, by decide⟩
